import Mathlib

/-!
# Verification of the Realm transfer-channel core (`channel.cc`)

A shallow embedding, in Lean 4, of the data structures and operations of the
data-movement engine in `src/runtime/realm/transfer/channel.cc`:

* `SequenceAssembler` (contiguous-prefix tracker over out-of-order spans),
* `AddressList` / `AddressListCursor` (bounded ring of N-D address entries),
* the `XferDes` byte-accounting operations (`update_bytes_read/write`,
  `update_pre_bytes_write/total`, `update_next_bytes_read`,
  `record_address_consumption`, `update_control_info`, `is_completed`),
* the `XferDesQueue` buffering of cross-XD updates.

The embedding is sequential: each C++ method runs under the structure's own
lock / CAS discipline, so a call is modelled as an atomic state transition.
Under a single interleaving the lock-free retry paths collapse to their
sequential meaning, which is what is embedded here.  `size_t` values are
modelled as `Nat`; `size_t(-1)` sentinels are the explicit constant
`SIZE_MAX`, and the only subtractions that can wrap in practice
(`remaining_count -= total_bytes`) use an explicit mod-`2^64` subtraction.
Code guarded by `#ifdef DEBUG_REALM` is compiled out in release builds and is
not part of the embedding; plain `assert`s (compiled in) are modelled by
returning `none`.

External collaborators (memories, iterators, the network) are not part of the
core and appear only through the values they supply: the bytes an iterator
step exposes enter as explicit function arguments, and an iterator's `done()`
is an oracle `Bool` snapshot carried on the port.
-/

namespace Channel

/-- `2^64`, the modulus of `size_t` arithmetic. -/
def USIZE : Nat := 2 ^ 64

/-- `size_t(-1)`, used as the "unknown" sentinel for `first_noncontig` and
`remote_bytes_total`. -/
def SIZE_MAX : Nat := USIZE - 1

/-- `size_t` subtraction `a - b` with wraparound, for `a b < 2^64`. -/
def sub64 (a b : Nat) : Nat := (a + USIZE - b % USIZE) % USIZE

----------------------------------------------------------------------
-- SequenceAssembler  (channel.cc lines 243-437)
----------------------------------------------------------------------

/-- State of a `SequenceAssembler`.  The C++ packs the contiguous prefix and
the "noncontig map non-empty" flag into one atomic word
`contig_amount_x2 = (contig_amount <<< 1) ||| noncontig_bit`; the embedding
splits the two fields.  `spans` is the ordered `std::map<size_t,size_t>`
of out-of-order spans, kept as a list sorted by start. -/
structure SequenceAssembler where
  contig_amount : Nat
  noncontig_bit : Bool
  first_noncontig : Nat
  spans : List (Nat × Nat)
  deriving Repr, DecidableEq

namespace SequenceAssembler

/-- A fresh assembler: `contig_amount_x2 = 0`, `first_noncontig = size_t(-1)`,
empty span map (constructor, channel.cc line 243). -/
def init : SequenceAssembler :=
  { contig_amount := 0, noncontig_bit := false, first_noncontig := SIZE_MAX,
    spans := [] }

/-- Insertion into the ordered map `spans` (`spans[pos] = count`), keeping the
list sorted by start; an existing entry with the same key is overwritten,
matching `std::map::operator[]`. -/
def mapInsert (pos count : Nat) : List (Nat × Nat) → List (Nat × Nat)
  | [] => [(pos, count)]
  | (s, c) :: rest =>
    if pos < s then (pos, count) :: (s, c) :: rest
    else if pos = s then (pos, count) :: rest
    else (s, c) :: mapInsert pos count rest

/-- The coalescing loop shared by the two locked paths of `add_span`
(channel.cc lines 361-371 and 407-417): starting from `span_end`, pop leading
map entries whose start equals the running end, returning the final end, the
remaining map, and the new `first_noncontig` (the start of the entry that
stopped the loop, or `size_t(-1)` if the map emptied). -/
def coalesce (span_end : Nat) : List (Nat × Nat) → Nat × List (Nat × Nat) × Nat
  | [] => (span_end, [], SIZE_MAX)
  | (s, c) :: rest =>
    if s = span_end then coalesce (span_end + c) rest
    else (span_end, (s, c) :: rest, s)

/-- `SequenceAssembler::span_exists(start, count)` (channel.cc lines 273-336):
the number of contiguous bytes available in `[start, start+count)`.  The
general (locked) case walks the map from the entry covering `start`,
chaining across touching entries. -/
def spanExistsChain (start count : Nat) : Nat → List (Nat × Nat) → Nat
  | max_avail, [] => if max_avail < count then max_avail else count
  | max_avail, (s, c) :: rest =>
    if max_avail < count then
      if s > start + max_avail then max_avail
      else spanExistsChain start count (max_avail + c) rest
    else count

/-- Walk the sorted map to the last entry whose start is `≤ start`
(`upper_bound` followed by `--it`), then measure contiguous coverage from
`start`.  Returns `0` when no entry covers `start`. -/
def spanSearch (start count : Nat) : List (Nat × Nat) → Nat
  | [] => 0
  | (s, c) :: rest =>
    if s ≤ start then
      match rest with
      | [] =>
        if s + c > start then spanExistsChain start count (s + c - start) []
        else 0
      | (s', c') :: rest' =>
        if s' ≤ start then spanSearch start count ((s', c') :: rest')
        else
          if s + c > start then
            spanExistsChain start count (s + c - start) ((s', c') :: rest')
          else 0
    else 0

def span_exists (a : SequenceAssembler) (start count : Nat) : Nat :=
  -- lock-free case 1: start < contig_amount
  if start < a.contig_amount then
    min count (a.contig_amount - start)
  else
    -- lock-free case 2a: no noncontig ranges known
    if a.noncontig_bit = false then 0
    else
      -- lock-free case 2b: contig_amount <= start < first_noncontig
      if start < a.first_noncontig then 0
      else
        -- general case 3 (locked): rechecks change nothing sequentially,
        -- then search the span map
        spanSearch start count a.spans

/-- `SequenceAssembler::add_span(pos, count)` (channel.cc lines 340-437),
sequential semantics.  Returns the new state and the amount by which the
contiguous prefix grew.

* fastest case: CAS of `contig_amount_x2` from `pos<<1` to `(pos+count)<<1`
  succeeds exactly when `contig_amount = pos` and the noncontig bit is clear;
* second case: `contig_amount = pos` but the bit is set — take the lock and
  coalesce leading map entries;
* worst case: insert into the map.  Sequentially the `fetch_or(1)` re-check
  never finds itself caught up (the prefix cannot have moved), so the only
  behavioural split is that `first_noncontig` is updated on neither branch. -/
def add_span (a : SequenceAssembler) (pos count : Nat) :
    SequenceAssembler × Nat :=
  if a.contig_amount = pos ∧ a.noncontig_bit = false then
    ({ a with contig_amount := pos + count }, count)
  else if a.contig_amount = pos then
    let r := coalesce (pos + count) a.spans
    ({ contig_amount := r.1, noncontig_bit := !r.2.1.isEmpty,
       first_noncontig := r.2.2, spans := r.2.1 }, r.1 - pos)
  else
    let spans' := mapInsert pos count a.spans
    if pos > a.first_noncontig then
      ({ a with spans := spans' }, 0)
    else
      ({ a with spans := spans', noncontig_bit := true }, 0)

/-- The set of byte positions recorded by the assembler: everything below the
contiguous prefix plus the out-of-order spans. -/
def inSpans (l : List (Nat × Nat)) (x : Nat) : Prop :=
  ∃ p ∈ l, p.1 ≤ x ∧ x < p.1 + p.2

instance (l : List (Nat × Nat)) (x : Nat) : Decidable (inSpans l x) :=
  List.decidableBEx _ l

def covered (a : SequenceAssembler) (x : Nat) : Prop :=
  x < a.contig_amount ∨ inSpans a.spans x

instance (a : SequenceAssembler) (x : Nat) : Decidable (covered a x) := by
  unfold covered; infer_instance

/-- Well-formedness of a sequentially-reached assembler state: the span map
holds pairwise-separated, non-empty spans strictly beyond the contiguous
prefix; the noncontig bit mirrors map non-emptiness; and the cached
`first_noncontig` is an over-approximation of the smallest map key
(`size_t(-1)` when the map is empty — the insert path never lowers the
cache, so it may be stale-high). -/
structure WF (a : SequenceAssembler) : Prop where
  sep : a.spans.Pairwise (fun p q => p.1 + p.2 ≤ q.1)
  pos_counts : ∀ p ∈ a.spans, 0 < p.2
  keys_gt : ∀ p ∈ a.spans, a.contig_amount < p.1
  bit_iff : a.noncontig_bit = true ↔ a.spans ≠ []
  fnc_head : ∀ p ∈ a.spans.head?, p.1 ≤ a.first_noncontig
  fnc_empty : a.spans = [] → a.first_noncontig = SIZE_MAX

theorem WF_init : WF init := by
  constructor <;> simp [init]

----------------------------------------------------------------------
-- lemmas about coalesce
----------------------------------------------------------------------

theorem coalesce_ge (l : List (Nat × Nat)) (e : Nat) :
    e ≤ (coalesce e l).1 := by
  induction l generalizing e with
  | nil => simp [coalesce]
  | cons p rest ih =>
    obtain ⟨s, c⟩ := p
    by_cases h : s = e
    · simpa [coalesce, h] using le_trans (Nat.le_add_right e c) (ih (e + c))
    · simp [coalesce, h]

theorem coalesce_covered (l : List (Nat × Nat)) (e : Nat) (x : Nat) :
    (x < (coalesce e l).1 ∨ inSpans (coalesce e l).2.1 x) ↔
      (x < e ∨ inSpans l x) := by
  induction l generalizing e with
  | nil => simp [coalesce]
  | cons p rest ih =>
    obtain ⟨s, c⟩ := p
    by_cases h : s = e
    · subst h
      rw [show coalesce s ((s, c) :: rest) = coalesce (s + c) rest from by
        simp [coalesce]]
      rw [ih (s + c)]
      constructor
      · rintro (hx | hx)
        · rcases Nat.lt_or_ge x s with h' | h'
          · exact Or.inl h'
          · exact Or.inr ⟨(s, c), by simp, h', hx⟩
        · exact Or.inr ⟨hx.choose, by simp [hx.choose_spec.1], hx.choose_spec.2⟩
      · rintro (hx | hx)
        · exact Or.inl (lt_of_lt_of_le hx (Nat.le_add_right s c))
        · rcases hx with ⟨q, hq, hq1, hq2⟩
          rcases List.mem_cons.mp hq with rfl | hq
          · exact Or.inl hq2
          · exact Or.inr ⟨q, hq, hq1, hq2⟩
    · simp [coalesce, h]

theorem coalesce_suffix (l : List (Nat × Nat)) (e : Nat) :
    (coalesce e l).2.1 <:+ l := by
  induction l generalizing e with
  | nil => simp [coalesce]
  | cons q rest ih =>
    obtain ⟨s, c⟩ := q
    by_cases h : s = e
    · have := ih (e + c)
      rw [show coalesce e ((s, c) :: rest) = coalesce (e + c) rest from by
        simp [coalesce, h]]
      exact this.trans (List.suffix_cons _ _)
    · simp [coalesce, h]

theorem coalesce_subset (l : List (Nat × Nat)) (e : Nat) :
    ∀ p ∈ (coalesce e l).2.1, p ∈ l :=
  fun _ hp => (coalesce_suffix l e).subset hp

theorem coalesce_keys (l : List (Nat × Nat)) (e : Nat)
    (hsep : l.Pairwise (fun p q => p.1 + p.2 ≤ q.1))
    (hpos : ∀ p ∈ l, 0 < p.2)
    (hge : ∀ p ∈ l, e ≤ p.1) :
    ∀ p ∈ (coalesce e l).2.1, (coalesce e l).1 < p.1 := by
  induction l generalizing e with
  | nil => simp [coalesce]
  | cons q rest ih =>
    obtain ⟨s, c⟩ := q
    rw [List.pairwise_cons] at hsep
    by_cases h : s = e
    · subst h
      intro p hp
      rw [show coalesce s ((s, c) :: rest) = coalesce (s + c) rest from by
        simp [coalesce]] at hp ⊢
      exact ih (s + c) hsep.2 (fun p hp => hpos p (List.mem_cons_of_mem _ hp))
        (fun p hp => hsep.1 p hp) p hp
    · intro p hp
      simp only [coalesce, if_neg h] at hp ⊢
      rcases List.mem_cons.mp hp with rfl | hp
      · exact lt_of_le_of_ne (hge (s, c) (by simp)) (Ne.symm h)
      · calc e ≤ s := hge (s, c) (by simp)
          _ < s + c := Nat.lt_add_of_pos_right (hpos (s, c) (by simp))
          _ ≤ p.1 := hsep.1 p hp

theorem coalesce_fnc (l : List (Nat × Nat)) (e : Nat) :
    ((coalesce e l).2.1 = [] ∧ (coalesce e l).2.2 = SIZE_MAX) ∨
      (∃ q t, (coalesce e l).2.1 = q :: t ∧ (coalesce e l).2.2 = q.1) := by
  induction l generalizing e with
  | nil => simp [coalesce]
  | cons p rest ih =>
    obtain ⟨s, c⟩ := p
    by_cases h : s = e
    · simpa [coalesce, h] using ih (e + c)
    · exact Or.inr ⟨(s, c), rest, by simp [coalesce, h]⟩

theorem coalesce_pairwise (l : List (Nat × Nat)) (e : Nat)
    (hsep : l.Pairwise (fun p q => p.1 + p.2 ≤ q.1)) :
    ((coalesce e l).2.1).Pairwise (fun p q => p.1 + p.2 ≤ q.1) :=
  hsep.sublist (coalesce_suffix l e).sublist

----------------------------------------------------------------------
-- lemmas about mapInsert
----------------------------------------------------------------------

theorem mapInsert_mem_of_not_key (l : List (Nat × Nat)) (pos count : Nat)
    (hk : ∀ p ∈ l, p.1 ≠ pos) :
    ∀ q, q ∈ mapInsert pos count l ↔ q = (pos, count) ∨ q ∈ l := by
  induction l with
  | nil => simp [mapInsert]
  | cons p rest ih =>
    obtain ⟨s, c⟩ := p
    intro q
    by_cases h1 : pos < s
    · simp [mapInsert, h1, or_comm, or_assoc, or_left_comm]
    · have h2 : ¬ pos = s := fun h => (hk (s, c) (by simp) h.symm)
      simp only [mapInsert, if_neg h1, if_neg h2]
      rw [List.mem_cons, List.mem_cons,
        ih (fun p hp => hk p (List.mem_cons_of_mem _ hp)) q]
      tauto

theorem mapInsert_pairwise (l : List (Nat × Nat)) (pos count : Nat)
    (hc : 0 < count) (hpos : ∀ p ∈ l, 0 < p.2)
    (hdisj : ∀ p ∈ l, p.1 + p.2 ≤ pos ∨ pos + count ≤ p.1)
    (hsep : l.Pairwise (fun p q => p.1 + p.2 ≤ q.1)) :
    (mapInsert pos count l).Pairwise (fun p q => p.1 + p.2 ≤ q.1) := by
  induction l with
  | nil => simp [mapInsert]
  | cons p rest ih =>
    obtain ⟨s, c⟩ := p
    rw [List.pairwise_cons] at hsep
    have hps : 0 < c := hpos (s, c) (by simp)
    have hd : s + c ≤ pos ∨ pos + count ≤ s := hdisj (s, c) (by simp)
    by_cases h1 : pos < s
    · have hle : pos + count ≤ s := by
        rcases hd with h | h
        · omega
        · exact h
      rw [show mapInsert pos count ((s, c) :: rest) =
        (pos, count) :: (s, c) :: rest from by simp [mapInsert, h1]]
      refine List.pairwise_cons.mpr ⟨?_, List.pairwise_cons.mpr hsep⟩
      intro q hq
      rcases List.mem_cons.mp hq with rfl | hq
      · exact hle
      · have := hsep.1 q hq; omega
    · have h2 : ¬ pos = s := by
        intro h; subst h; omega
      rw [show mapInsert pos count ((s, c) :: rest) =
        (s, c) :: mapInsert pos count rest from by simp [mapInsert, h1, h2]]
      have hsc_pos : s + c ≤ pos := by
        rcases hd with h | h
        · exact h
        · omega
      have hknot : ∀ p ∈ rest, p.1 ≠ pos := by
        intro q hq h
        rcases hdisj q (List.mem_cons_of_mem _ hq) with h' | h' <;>
          [skip; omega]
        have := hpos q (List.mem_cons_of_mem _ hq)
        omega
      refine List.pairwise_cons.mpr
        ⟨?_, ih (fun q hq => hpos q (List.mem_cons_of_mem _ hq))
          (fun q hq => hdisj q (List.mem_cons_of_mem _ hq)) hsep.2⟩
      intro q hq
      rcases (mapInsert_mem_of_not_key rest pos count hknot q).mp hq with rfl | hq
      · exact hsc_pos
      · exact hsep.1 q hq

theorem mapInsert_ne_nil (l : List (Nat × Nat)) (pos count : Nat) :
    mapInsert pos count l ≠ [] := by
  cases l with
  | nil => simp [mapInsert]
  | cons p rest =>
    obtain ⟨s, c⟩ := p
    by_cases h1 : pos < s
    · simp [mapInsert, h1]
    · by_cases h2 : pos = s <;> simp [mapInsert, h1, h2]

theorem mapInsert_cons_lt {s c : Nat} (rest : List (Nat × Nat))
    (pos count : Nat) (h : pos < s) :
    mapInsert pos count ((s, c) :: rest) = (pos, count) :: (s, c) :: rest := by
  simp [mapInsert, h]

theorem mapInsert_cons_gt {s c : Nat} (rest : List (Nat × Nat))
    (pos count : Nat) (h : s < pos) :
    mapInsert pos count ((s, c) :: rest) = (s, c) :: mapInsert pos count rest := by
  have h1 : ¬ pos < s := by omega
  have h2 : ¬ pos = s := by omega
  simp [mapInsert, h1, h2]

/-- Effect of `add_span` on the recorded byte set: provided the new span is
disjoint from everything recorded so far, the result records exactly the old
set plus `[pos, pos+count)`. -/
theorem add_span_covered (a : SequenceAssembler) (pos count : Nat)
    (hwf : WF a) (hc : 0 < count)
    (hdisj : ∀ x, pos ≤ x → x < pos + count → ¬ covered a x) :
    ∀ x, covered (a.add_span pos count).1 x ↔
      (covered a x ∨ (pos ≤ x ∧ x < pos + count)) := by
  intro x
  unfold add_span
  by_cases h1 : a.contig_amount = pos ∧ a.noncontig_bit = false
  · have hsp : a.spans = [] := by
      by_contra h
      have := hwf.bit_iff.mpr h
      simp [h1.2] at this
    simp only [if_pos h1, covered, inSpans, hsp, List.not_mem_nil]
    constructor
    · intro hx
      rcases hx with hx | hx
      · rcases Nat.lt_or_ge x pos with h' | h'
        · exact Or.inl (Or.inl (h1.1 ▸ h'))
        · exact Or.inr ⟨h', hx⟩
      · exact absurd hx (by simp)
    · rintro ((hx | hx) | hx)
      · exact Or.inl (lt_of_lt_of_le (h1.1 ▸ hx) (Nat.le_add_right pos count))
      · exact absurd hx (by simp)
      · exact Or.inl hx.2
  · by_cases h2 : a.contig_amount = pos
    · simp only [if_neg h1, if_pos h2, covered]
      have := coalesce_covered a.spans (pos + count) x
      simp only [covered] at this
      rw [this]
      constructor
      · rintro (hx | hx)
        · rcases Nat.lt_or_ge x pos with h' | h'
          · exact Or.inl (Or.inl (h2 ▸ h'))
          · exact Or.inr ⟨h', hx⟩
        · exact Or.inl (Or.inr hx)
      · rintro ((hx | hx) | hx)
        · exact Or.inl (lt_of_lt_of_le (h2 ▸ hx) (Nat.le_add_right pos count))
        · exact Or.inr hx
        · exact Or.inl hx.2
    · have hknot : ∀ p ∈ a.spans, p.1 ≠ pos := by
        intro q hq h
        exact hdisj pos (le_refl _) (by omega)
          (Or.inr ⟨q, hq, h.le, by have := hwf.pos_counts q hq; omega⟩)
      have hmem := mapInsert_mem_of_not_key a.spans pos count hknot
      by_cases h3 : pos > a.first_noncontig <;>
        · simp only [if_neg h1, if_neg h2, h3, covered, inSpans,
            ite_true, ite_false, if_true, if_false]
          constructor
          · rintro (hx | ⟨q, hq, hq1, hq2⟩)
            · exact Or.inl (Or.inl hx)
            · rcases (hmem q).mp hq with rfl | hq
              · exact Or.inr ⟨hq1, hq2⟩
              · exact Or.inl (Or.inr ⟨q, hq, hq1, hq2⟩)
          · rintro ((hx | ⟨q, hq, hq1, hq2⟩) | hx)
            · exact Or.inl hx
            · exact Or.inr ⟨q, (hmem q).mpr (Or.inr hq), hq1, hq2⟩
            · exact Or.inr ⟨(pos, count), (hmem _).mpr (Or.inl rfl), hx.1, hx.2⟩

/-- `add_span` preserves well-formedness when the new span is non-empty,
bounded, and disjoint from everything recorded. -/
theorem add_span_WF (a : SequenceAssembler) (pos count : Nat)
    (hwf : WF a) (hc : 0 < count) (hb : pos + count ≤ SIZE_MAX)
    (hdisj : ∀ x, pos ≤ x → x < pos + count → ¬ covered a x) :
    WF (a.add_span pos count).1 := by
  have hdisj' : ∀ p ∈ a.spans, p.1 + p.2 ≤ pos ∨ pos + count ≤ p.1 := by
    intro q hq
    by_contra h
    push_neg at h
    have hq2 := hwf.pos_counts q hq
    -- the two intervals overlap; exhibit a common point
    rcases Nat.lt_or_ge q.1 pos with h' | h'
    · exact hdisj pos (le_refl _) (by omega) (Or.inr ⟨q, hq, by omega, by omega⟩)
    · exact hdisj q.1 h' (by omega) (Or.inr ⟨q, hq, by omega, by omega⟩)
  unfold add_span
  by_cases h1 : a.contig_amount = pos ∧ a.noncontig_bit = false
  · have hsp : a.spans = [] := by
      by_contra h
      have := hwf.bit_iff.mpr h
      simp [h1.2] at this
    rw [if_pos h1]
    exact ⟨by simp [hsp], by simp [hsp], by simp [hsp],
      by simpa [hsp] using h1.2, by simp [hsp, hwf.fnc_empty hsp],
      fun _ => hwf.fnc_empty hsp⟩
  · by_cases h2 : a.contig_amount = pos
    · rw [if_neg h1, if_pos h2]
      have hge : ∀ p ∈ a.spans, pos + count ≤ p.1 := by
        intro q hq
        rcases hdisj' q hq with h | h
        · have := hwf.keys_gt q hq
          have := hwf.pos_counts q hq
          omega
        · exact h
      have hkeys := coalesce_keys a.spans (pos + count) hwf.sep
        hwf.pos_counts hge
      have hfnc := coalesce_fnc a.spans (pos + count)
      refine ⟨coalesce_pairwise _ _ hwf.sep,
        fun q hq => hwf.pos_counts q (coalesce_subset _ _ q hq),
        hkeys, ?_, ?_, ?_⟩ <;> dsimp only
      · cases h : (coalesce (pos + count) a.spans).2.1 <;> simp [h]
      · rcases hfnc with ⟨h, h'⟩ | ⟨q, t, h, h'⟩ <;> simp [h, h']
      · intro h
        rcases hfnc with ⟨_, h'⟩ | ⟨q, t, he, _⟩
        · exact h'
        · rw [h] at he; exact absurd he (by simp)
    · have hknot : ∀ p ∈ a.spans, p.1 ≠ pos := by
        intro q hq h
        exact hdisj pos (le_refl _) (by omega)
          (Or.inr ⟨q, hq, h.le, by have := hwf.pos_counts q hq; omega⟩)
      have hmem := mapInsert_mem_of_not_key a.spans pos count hknot
      have hposle : pos < SIZE_MAX := by omega
      have hcpos : a.contig_amount < pos := by
        rcases Nat.lt_or_ge pos a.contig_amount with h' | h'
        · exact absurd (Or.inl h' : covered a pos)
            (hdisj pos (le_refl _) (by omega))
        · omega
      have hsep' := mapInsert_pairwise a.spans pos count hc hwf.pos_counts
        hdisj' hwf.sep
      have hpos' : ∀ p ∈ mapInsert pos count a.spans, 0 < p.2 := by
        intro q hq
        rcases (hmem q).mp hq with rfl | hq
        · exact hc
        · exact hwf.pos_counts q hq
      have hkeys' : ∀ p ∈ mapInsert pos count a.spans, a.contig_amount < p.1 := by
        intro q hq
        rcases (hmem q).mp hq with rfl | hq
        · exact hcpos
        · exact hwf.keys_gt q hq
      by_cases h3 : pos > a.first_noncontig
      · rw [if_neg h1, if_neg h2, if_pos h3]
        have hne : a.spans ≠ [] := by
          intro h
          rw [hwf.fnc_empty h] at h3
          omega
        -- the old head stays in front: its key is below the cache, and the
        -- cache is below `pos`
        have hhd : ∀ p ∈ (mapInsert pos count a.spans).head?,
            p.1 ≤ a.first_noncontig := by
          cases hs : a.spans with
          | nil => exact absurd hs hne
          | cons q t =>
            have hql : q.1 ≤ a.first_noncontig := hwf.fnc_head q (by simp [hs])
            obtain ⟨s, c⟩ := q
            have hlt : s < pos := by simp at hql; omega
            rw [mapInsert_cons_gt t pos count hlt]
            intro p hp
            simp only [List.head?_cons, Option.mem_def, Option.some_inj] at hp
            exact hp ▸ hql
        -- the bit must already be set (the map was non-empty)
        exact ⟨hsep', hpos', hkeys',
          by simp [hwf.bit_iff.mpr hne, mapInsert_ne_nil], hhd,
          fun h => absurd h (mapInsert_ne_nil _ _ _)⟩
      · rw [if_neg h1, if_neg h2, if_neg h3]
        have hhd : ∀ p ∈ (mapInsert pos count a.spans).head?,
            p.1 ≤ a.first_noncontig := by
          cases hs : a.spans with
          | nil =>
            intro p hp
            simp only [mapInsert, List.head?_cons, Option.mem_def,
              Option.some_inj] at hp
            subst hp
            omega
          | cons q t =>
            have hql : q.1 ≤ a.first_noncontig := hwf.fnc_head q (by simp [hs])
            obtain ⟨s, c⟩ := q
            rcases Nat.lt_trichotomy pos s with hlt | heq | hgt
            · rw [mapInsert_cons_lt t pos count hlt]
              intro p hp
              simp only [List.head?_cons, Option.mem_def, Option.some_inj] at hp
              subst hp
              omega
            · exact absurd heq.symm (hknot (s, c) (by simp [hs]))
            · rw [mapInsert_cons_gt t pos count hgt]
              intro p hp
              simp only [List.head?_cons, Option.mem_def, Option.some_inj] at hp
              exact hp ▸ hql
        exact ⟨hsep', hpos', hkeys', by simp [mapInsert_ne_nil], hhd,
          fun h => absurd h (mapInsert_ne_nil _ _ _)⟩

/-- The contiguous prefix never decreases, and the return value is exactly
the amount of growth; growth happens only when `pos` met the old prefix. -/
theorem add_span_delta (a : SequenceAssembler) (pos count : Nat) :
    (a.add_span pos count).1.contig_amount
        = a.contig_amount + (a.add_span pos count).2 ∧
      ((a.add_span pos count).2 ≠ 0 → pos = a.contig_amount) := by
  unfold add_span
  by_cases h1 : a.contig_amount = pos ∧ a.noncontig_bit = false
  · simp [h1, h1.1]
  · by_cases h2 : a.contig_amount = pos
    · have := coalesce_ge a.spans (pos + count)
      simp only [if_neg h1, if_pos h2]
      exact ⟨by omega, fun _ => h2.symm⟩
    · by_cases h3 : pos > a.first_noncontig <;> simp [h1, h2, h3]

theorem add_span_mono (a : SequenceAssembler) (pos count : Nat) :
    a.contig_amount ≤ (a.add_span pos count).1.contig_amount := by
  have := (add_span_delta a pos count).1
  omega

/-- In a well-formed state the prefix is exactly the recorded set's
contiguous prefix: everything below it is recorded and it is not. -/
theorem contig_characterize (a : SequenceAssembler) (hwf : WF a) :
    (∀ x, x < a.contig_amount → covered a x) ∧ ¬ covered a a.contig_amount := by
  refine ⟨fun x hx => Or.inl hx, ?_⟩
  rintro (h | ⟨q, hq, hq1, _⟩)
  · omega
  · have := hwf.keys_gt q hq
    omega

/-- In a well-formed state, `span_exists(0, n)` is exactly
`min n contig_amount`: the lock-free fast paths answer every query starting
at zero. -/
theorem span_exists_zero (a : SequenceAssembler) (n : Nat) (hwf : WF a) :
    a.span_exists 0 n = min n a.contig_amount := by
  unfold span_exists
  by_cases h1 : 0 < a.contig_amount
  · simp [h1]
  · have hc0 : a.contig_amount = 0 := by omega
    by_cases h2 : a.noncontig_bit = false
    · simp [h1, h2, hc0]
    · have hne : a.spans ≠ [] := hwf.bit_iff.mp (by revert h2; cases a.noncontig_bit <;> simp)
      have hfnc : 0 < a.first_noncontig := by
        cases h : a.spans with
        | nil => exact absurd h hne
        | cons q t =>
          have h1' := hwf.fnc_head q (by simp [h])
          have h2' := hwf.keys_gt q (by simp [h])
          omega
      simp [h1, h2, hc0, hfnc]

/-- Fold a list of spans into the assembler, one `add_span` per element. -/
def addAll (a : SequenceAssembler) (l : List (Nat × Nat)) : SequenceAssembler :=
  l.foldl (fun st p => (st.add_span p.1 p.2).1) a

/-- Pairwise disjointness of a list of `(start, count)` spans. -/
def SpansDisjoint (l : List (Nat × Nat)) : Prop :=
  l.Pairwise (fun p q => p.1 + p.2 ≤ q.1 ∨ q.1 + q.2 ≤ p.1)

instance (l : List (Nat × Nat)) : Decidable (SpansDisjoint l) := by
  unfold SpansDisjoint; infer_instance

theorem covered_init (x : Nat) : ¬ covered init x := by
  rintro (h | ⟨q, hq, _⟩)
  · simp [init] at h
  · simp [init] at hq

theorem addAll_WF_covered (l : List (Nat × Nat)) :
    ∀ a : SequenceAssembler, WF a →
    (∀ p ∈ l, 0 < p.2 ∧ p.1 + p.2 ≤ SIZE_MAX) →
    (∀ p ∈ l, ∀ x, p.1 ≤ x → x < p.1 + p.2 → ¬ covered a x) →
    SpansDisjoint l →
    WF (addAll a l) ∧ (∀ x, covered (addAll a l) x ↔ covered a x ∨ inSpans l x) := by
  induction l with
  | nil => exact fun a hwf _ _ _ => ⟨hwf, by simp [addAll, inSpans]⟩
  | cons p t ih =>
    intro a hwf hb hdisj hpair
    obtain ⟨hp1, hp2⟩ := hb p (by simp)
    have hd1 : ∀ x, p.1 ≤ x → x < p.1 + p.2 → ¬ covered a x :=
      hdisj p (by simp)
    have hwf' := add_span_WF a p.1 p.2 hwf hp1 hp2 hd1
    have hcov' := add_span_covered a p.1 p.2 hwf hp1 hd1
    rw [SpansDisjoint, List.pairwise_cons] at hpair
    have hrest : ∀ q ∈ t, ∀ x, q.1 ≤ x → x < q.1 + q.2 →
        ¬ covered (a.add_span p.1 p.2).1 x := by
      intro q hq x hx1 hx2 hc
      rcases (hcov' x).mp hc with hc | hc
      · exact hdisj q (by simp [hq]) x hx1 hx2 hc
      · rcases hpair.1 q hq with h | h <;> omega
    have := ih (a.add_span p.1 p.2).1 hwf'
      (fun q hq => hb q (by simp [hq])) hrest hpair.2
    refine ⟨by simpa [addAll] using this.1, ?_⟩
    intro x
    have h2 := this.2 x
    simp only [addAll, List.foldl_cons] at h2 ⊢
    rw [h2, hcov' x]
    simp only [inSpans, List.mem_cons]
    constructor
    · rintro ((hc | hc) | ⟨q, hq, hx⟩)
      · exact Or.inl hc
      · exact Or.inr ⟨p, Or.inl rfl, hc⟩
      · exact Or.inr ⟨q, Or.inr hq, hx⟩
    · rintro (hc | ⟨q, hq | hq, hx⟩)
      · exact Or.inl (Or.inl hc)
      · exact Or.inl (Or.inr (hq ▸ hx))
      · exact Or.inr ⟨q, hq, hx⟩

/-- The final prefix after adding a disjoint cover of `[0, N)` is exactly
`N`, whatever the order of insertion. -/
theorem addAll_cover_contig (N : Nat) (L : List (Nat × Nat))
    (hN : N ≤ SIZE_MAX)
    (hpos : ∀ p ∈ L, 0 < p.2)
    (hub : ∀ p ∈ L, p.1 + p.2 ≤ N)
    (hcover : ∀ x, x < N → inSpans L x)
    (hdisj : SpansDisjoint L) :
    (addAll init L).contig_amount = N ∧ WF (addAll init L) := by
  have hmain := addAll_WF_covered L init WF_init
    (fun p hp => ⟨hpos p hp, le_trans (hub p hp) hN⟩)
    (fun p hp x _ _ h => covered_init x h) hdisj
  have hcov : ∀ x, covered (addAll init L) x ↔ x < N := by
    intro x
    rw [hmain.2 x]
    constructor
    · rintro (h | ⟨q, hq, h1, h2⟩)
      · exact absurd h (covered_init x)
      · have := hub q hq; omega
    · exact fun h => Or.inr (hcover x h)
  have hch := contig_characterize _ hmain.1
  constructor
  · by_contra hne
    rcases Nat.lt_or_ge (addAll init L).contig_amount N with h | h
    · exact (hch.2) ((hcov _).mpr h)
    · have : N < (addAll init L).contig_amount := by omega
      have := hch.1 N this
      rw [hcov N] at this
      omega
  · exact hmain.1

theorem addAll_take_succ (a : SequenceAssembler) (L : List (Nat × Nat))
    (k : Nat) :
    addAll a (L.take (k + 1)) = match L[k]? with
      | none => addAll a (L.take k)
      | some p => ((addAll a (L.take k)).add_span p.1 p.2).1 := by
  rw [addAll, List.take_succ, List.foldl_append]
  cases h : L[k]? <;> simp [addAll, List.get?_eq_getElem?, h]

end SequenceAssembler

end Channel

namespace Channel

open SequenceAssembler

/-- **C1.** For every finite list of pairwise-disjoint non-empty spans that
together cover `[0, N)` (with `N` within `size_t` range), and every
permutation of that list, folding `SequenceAssembler::add_span` over the
list from a fresh assembler yields `span_exists(0, N) = N` at the end, the
value of `span_exists(0, N)` never decreases from one call to the next, and
the final contiguous prefix is the same for every permutation. -/
theorem c1_add_span_partition_monotone_commutative
    (N : Nat) (L L' : List (Nat × Nat))
    (hN : N ≤ SIZE_MAX)
    (hpos : ∀ p ∈ L, 0 < p.2)
    (hub : ∀ p ∈ L, p.1 + p.2 ≤ N)
    (hcover : ∀ x, x < N → inSpans L x)
    (hdisj : SpansDisjoint L)
    (hperm : L.Perm L') :
    (addAll init L).span_exists 0 N = N ∧
      (∀ k, (addAll init (L.take k)).span_exists 0 N ≤
        (addAll init (L.take (k + 1))).span_exists 0 N) ∧
      (addAll init L').contig_amount = (addAll init L).contig_amount := by
  have hL := addAll_cover_contig N L hN hpos hub hcover hdisj
  have hL' := addAll_cover_contig N L' hN
    (fun p hp => hpos p (hperm.mem_iff.mpr hp))
    (fun p hp => hub p (hperm.mem_iff.mpr hp))
    (fun x hx => by
      rcases hcover x hx with ⟨q, hq, h⟩
      exact ⟨q, hperm.mem_iff.mp hq, h⟩)
    (hdisj.perm hperm (fun h => h.symm))
  refine ⟨?_, ?_, ?_⟩
  · rw [span_exists_zero _ _ hL.2, hL.1]
    omega
  · intro k
    have hwfk : ∀ m : Nat, WF (addAll init (L.take m)) := by
      intro m
      exact (addAll_WF_covered (L.take m) init WF_init
        (fun p hp => by
          have hm := (L.take_sublist m).subset hp
          exact ⟨hpos p hm, le_trans (hub p hm) hN⟩)
        (fun p hp x _ _ h => covered_init x h)
        (hdisj.sublist (L.take_sublist m))).1
    rw [span_exists_zero _ _ (hwfk k), span_exists_zero _ _ (hwfk (k + 1)),
      addAll_take_succ init L k]
    cases h : L[k]? with
    | none => simp
    | some p =>
      simp only
      have := add_span_mono (addAll init (L.take k)) p.1 p.2
      omega
  · rw [hL.1, hL'.1]

/-- Witness for C1 at a concrete partition of `[0, 8)`. -/
theorem c1_add_span_partition_witness :
    (∀ x, x < 8 → inSpans [(4, 4), (0, 4)] x) ∧
      (addAll init [(4, 4), (0, 4)]).span_exists 0 8 = 8 ∧
      (addAll init [(0, 4), (4, 4)]).contig_amount
        = (addAll init [(4, 4), (0, 4)]).contig_amount := by
  have h := c1_add_span_partition_monotone_commutative 8
    [(4, 4), (0, 4)] [(0, 4), (4, 4)]
    (by decide) (by decide) (by decide) (by decide) (by decide)
    (List.Perm.swap _ _ _)
  exact ⟨by decide, h.1, h.2.2⟩

----------------------------------------------------------------------
-- XferDes ports and byte-accounting operations
----------------------------------------------------------------------

/-- Modelled from the spec: `XFERDES_NO_GUID` is declared in `channel.h`
(not part of the sources); the spec says it is "a reserved sentinel
(typically 0 or ~0) meaning no peer".  The code only ever compares guids
against it, so its concrete value is irrelevant; `0` is used. -/
def XFERDES_NO_GUID : Nat := 0

/-- A message handed to `xferDes_queue` on behalf of a peer XD
(`update_pre_bytes_write` / `update_pre_bytes_total` /
`update_next_bytes_read` calls, channel.cc lines 2104, 2162, 2168). -/
inductive Message where
  | pre_write (guid : Nat) (port : Nat) (start size : Nat)
  | pre_total (guid : Nat) (port : Nat) (total : Nat)
  | next_read (guid : Nat) (port : Nat) (start size : Nat)
  deriving Repr, DecidableEq

/-- One `XferPort` (input or output endpoint of an XD).  `iter` and `mem`
are external collaborators: only the iterator's `done()` snapshot and the
address list's `bytes_pending()` are consulted by the modelled operations,
so they are carried as oracle fields. -/
structure XferPort where
  peer_guid : Nat
  peer_port_idx : Nat
  needs_pbt_update : Bool
  local_bytes_total : Nat
  local_bytes_cons : Nat
  remote_bytes_total : Nat
  ib_offset : Nat
  ib_size : Nat
  seq_local : SequenceAssembler
  seq_remote : SequenceAssembler
  addrlist_bytes : Nat
  iter_done : Bool
  deriving Repr, DecidableEq

/-- Per-direction control descriptor (`XferDes::ControlInfo`). -/
structure ControlState where
  control_port_idx : Int
  current_io_port : Int
  remaining_count : Nat
  eos_received : Bool
  deriving Repr, DecidableEq

/-- The portion of `XferDes` state read or written by the byte-accounting
and completion operations. -/
structure XferDesState where
  input_ports : List XferPort
  output_ports : List XferPort
  input_control : ControlState
  output_control : ControlState
  iteration_completed : Bool
  transfer_completed : Bool
  deriving Repr, DecidableEq

namespace XferDesState

/-- `XferDes::update_bytes_read(port_idx, offset, size)`
(channel.cc lines 2094-2112): add the span to the input port's `seq_local`;
if the port has an upstream peer and the contiguous prefix grew, forward
`update_next_bytes_read(offset + ib_size, inc_amt)` to it. -/
def update_bytes_read (st : XferDesState) (port_idx offset size : Nat) :
    XferDesState × List Message :=
  match st.input_ports[port_idx]? with
  | none => (st, [])
  | some p =>
    let r := p.seq_local.add_span offset size
    let inc_amt := r.2
    let p' := { p with seq_local := r.1 }
    let st' := { st with input_ports := st.input_ports.set port_idx p' }
    if p'.peer_guid ≠ XFERDES_NO_GUID then
      if inc_amt > 0 then
        (st', [Message.next_read p'.peer_guid p'.peer_port_idx
          (offset + p'.ib_size) inc_amt])
      else (st', [])
    else (st', [])

/-- `XferDes::update_bytes_write(port_idx, offset, size)`
(channel.cc lines 2147-2176): add the span to the output port's `seq_local`
(a growth also re-queues the XD via `update_progress`, a scheduling effect
not modelled); then, if the port has a peer, first send the final
`update_pre_bytes_total` if it is still owed and `iteration_completed` is
observable (one-shot atomic exchange of `needs_pbt_update`), and then
forward the contiguous growth as `update_pre_bytes_write`. -/
def update_bytes_write (st : XferDesState) (port_idx offset size : Nat) :
    XferDesState × List Message :=
  match st.output_ports[port_idx]? with
  | none => (st, [])
  | some p =>
    let r := p.seq_local.add_span offset size
    let inc_amt := r.2
    let p' := { p with seq_local := r.1 }
    if p'.peer_guid ≠ XFERDES_NO_GUID then
      let pbt : XferPort × List Message :=
        if p'.needs_pbt_update ∧ st.iteration_completed then
          ({ p' with needs_pbt_update := false },
           [Message.pre_total p'.peer_guid p'.peer_port_idx
              p'.local_bytes_total])
        else (p', [])
      let wmsgs : List Message :=
        if inc_amt > 0 then
          [Message.pre_write pbt.1.peer_guid pbt.1.peer_port_idx offset inc_amt]
        else []
      ({ st with output_ports := st.output_ports.set port_idx pbt.1 },
       pbt.2 ++ wmsgs)
    else
      ({ st with output_ports := st.output_ports.set port_idx p' }, [])

/-- `XferDes::update_pre_bytes_write(port_idx, offset, size)`
(channel.cc lines 2214-2224): record the upstream-produced span in the
input port's `seq_remote` (growth re-queues the XD, not modelled). -/
def update_pre_bytes_write (st : XferDesState) (port_idx offset size : Nat) :
    XferDesState :=
  match st.input_ports[port_idx]? with
  | none => st
  | some p =>
    let r := p.seq_remote.add_span offset size
    { st with input_ports :=
        st.input_ports.set port_idx { p with seq_remote := r.1 } }

/-- `XferDes::update_pre_bytes_total(port_idx, total)`
(channel.cc lines 2226-2243): one-shot exchange of `remote_bytes_total`
from `size_t(-1)` to the final count. -/
def update_pre_bytes_total (st : XferDesState) (port_idx total : Nat) :
    XferDesState :=
  match st.input_ports[port_idx]? with
  | none => st
  | some p =>
    { st with input_ports :=
        st.input_ports.set port_idx { p with remote_bytes_total := total } }

/-- `XferDes::update_next_bytes_read(port_idx, offset, size)`
(channel.cc lines 2245-2254): record freed IB space in the output port's
`seq_remote`. -/
def update_next_bytes_read (st : XferDesState) (port_idx offset size : Nat) :
    XferDesState :=
  match st.output_ports[port_idx]? with
  | none => st
  | some p =>
    let r := p.seq_remote.add_span offset size
    { st with output_ports :=
        st.output_ports.set port_idx { p with seq_remote := r.1 } }

/-- The output-port loop of `XferDes::is_completed` (channel.cc lines
2072-2089): walk the ports in order; for each, send the still-owed
`update_pre_bytes_total` (one-shot exchange), then require
`seq_local.span_exists(0, local_bytes_cons) == local_bytes_cons`; stop at
the first port that fails. -/
def isCompletedPorts : List XferPort → Bool × List XferPort × List Message
  | [] => (true, [], [])
  | p :: rest =>
    let pbt : XferPort × List Message :=
      if p.needs_pbt_update then
        ({ p with needs_pbt_update := false },
         [Message.pre_total p.peer_guid p.peer_port_idx p.local_bytes_total])
      else (p, [])
    let p' := pbt.1
    let lbc := p'.local_bytes_cons
    if p'.seq_local.span_exists 0 lbc ≠ lbc then
      (false, p' :: rest, pbt.2)
    else
      let r := isCompletedPorts rest
      (r.1, p' :: r.2.1, pbt.2 ++ r.2.2)

/-- `XferDes::is_completed()` (channel.cc lines 2062-2092). -/
def is_completed (st : XferDesState) : Bool × XferDesState × List Message :=
  if st.transfer_completed then (true, st, [])
  else if st.iteration_completed = false then (false, st, [])
  else
    let r := isCompletedPorts st.output_ports
    if r.1 then
      (true, { st with output_ports := r.2.1, transfer_completed := true },
       r.2.2)
    else
      (false, { st with output_ports := r.2.1 }, r.2.2)

/-- `XferDes::record_address_consumption(total_bytes)`
(channel.cc lines 1057-1103): bump the current input/output ports' byte
counters, compute per-side doneness (input: end-of-stream from upstream or
iterator exhausted; output: iterator exhausted only), decrement both control
`remaining_count`s, let control ports override doneness, and set
`iteration_completed` when either side is done.  The function sends no
messages.

The input-side block (channel.cc lines 1059-1072) bumps the current input
port's counters and computes its doneness. -/
def racInputSide (st : XferDesState) (total_bytes : Nat) :
    XferDesState × Bool :=
  if st.input_control.current_io_port ≥ 0 then
    match st.input_ports[st.input_control.current_io_port.toNat]? with
    | none => (st, false)
    | some p =>
      let p' := { p with
        local_bytes_total := p.local_bytes_total + total_bytes,
        local_bytes_cons := p.local_bytes_cons + total_bytes }
      let d : Bool :=
        if p'.peer_guid = XFERDES_NO_GUID then
          decide (p'.addrlist_bytes = 0) && p'.iter_done
        else
          decide (p'.local_bytes_total = p'.remote_bytes_total)
      ({ st with input_ports :=
          st.input_ports.set st.input_control.current_io_port.toNat p' }, d)
  else (st, false)

/-- The output-side block of `record_address_consumption` (channel.cc lines
1074-1084): bump the current output port's counters and compute its
doneness (only `NO_GUID` outputs can finish this way). -/
def racOutputSide (st : XferDesState) (total_bytes : Nat) :
    XferDesState × Bool :=
  if st.output_control.current_io_port ≥ 0 then
    match st.output_ports[st.output_control.current_io_port.toNat]? with
    | none => (st, false)
    | some p =>
      let p' := { p with
        local_bytes_total := p.local_bytes_total + total_bytes,
        local_bytes_cons := p.local_bytes_cons + total_bytes }
      let d : Bool :=
        if p'.peer_guid = XFERDES_NO_GUID then
          decide (p'.addrlist_bytes = 0) && p'.iter_done
        else false
      ({ st with output_ports :=
          st.output_ports.set st.output_control.current_io_port.toNat p' },
       d)
  else (st, false)

/-- The rest of `record_address_consumption`: run both side blocks,
decrement both control counts (mod `2^64`), apply the control overrides and
publish `iteration_completed`. -/
def record_address_consumption (st : XferDesState) (total_bytes : Nat) :
    Bool × XferDesState :=
  let inStep : XferDesState × Bool := racInputSide st total_bytes
  let st1 : XferDesState := inStep.1
  let outStep : XferDesState × Bool := racOutputSide st1 total_bytes
  let st2 : XferDesState := outStep.1
  let st3 : XferDesState := { st2 with
    input_control := { st2.input_control with
      remaining_count := sub64 st2.input_control.remaining_count total_bytes },
    output_control := { st2.output_control with
      remaining_count := sub64 st2.output_control.remaining_count total_bytes } }
  let in_done : Bool :=
    if st3.input_control.control_port_idx ≥ 0 then
      decide (st3.input_control.remaining_count = 0) &&
        st3.input_control.eos_received
    else inStep.2
  let out_done : Bool :=
    if st3.output_control.control_port_idx ≥ 0 then
      decide (st3.output_control.remaining_count = 0) &&
        st3.output_control.eos_received
    else outStep.2
  if in_done || out_done then
    (true, { st3 with iteration_completed := true })
  else (false, st3)

/-- One iteration of the completion-poke loop:
`update_bytes_write(i, output_ports[i].local_bytes_total, 0)`. -/
def pokeStep (acc : XferDesState × List Message) (i : Nat) :
    XferDesState × List Message :=
  let lbt := match acc.1.output_ports[i]? with
    | some p => p.local_bytes_total
    | none => 0
  let r := acc.1.update_bytes_write i lbt 0
  (r.1, acc.2 ++ r.2)

/-- The loop `for(i) update_bytes_write(i, output_ports[i].local_bytes_total,
0)` that "gives all output channels a chance to indicate completion"
(channel.cc lines 963-964). -/
def pokeOutputs (st : XferDesState) : XferDesState × List Message :=
  (List.range st.output_ports.length).foldl pokeStep (st, [])

/-- Decoding of a 4-byte control word (channel.cc lines 912-914 and
951-953): `remaining_count = cword >> 8`, `current_io_port = (cword & 0x7f)
- 1`, `eos_received = (cword & 128) != 0`. -/
def decodeControlWord (ctrl : ControlState) (cword : Nat) : ControlState :=
  { ctrl with
    remaining_count := cword >>> 8,
    current_io_port := (Int.ofNat (cword % 128)) - 1,
    eos_received := cword &&& 128 ≠ 0 }

/-- Intermediate result of one control-refill phase: either an early
`return 0` (with the state, messages and read-sequence-cache entries
accumulated so far) or fall-through to the next phase. -/
inductive CtrlStep where
  | early (st : XferDesState) (msgs : List Message)
      (cache : List (Nat × Nat × Nat))
  | cont (st : XferDesState) (cache : List (Nat × Nat × Nat))

/-- Input-control phase of `XferDes::update_control_info` (channel.cc lines
891-925).  The 4-byte word the iterator/memory pair exposes is the argument
`cw_in` (reduced mod `2^32` as the C++ `unsigned` read); the
`rseqcache->add_span` call is returned as a cache entry.  `none` models the
release assertions (`assert(amt == sizeof(unsigned))` and friends are about
external collaborators and are assumed; `assert(input_control.eos_received)`
is the modelled ill-formed-control failure). -/
def refillInputControl (st : XferDesState) (cw_in : Nat) : Option CtrlStep :=
  if st.input_control.remaining_count ≠ 0 then some (.cont st [])
  else
    if st.input_control.control_port_idx < 0 then none
    else
      match st.input_ports[st.input_control.control_port_idx.toNat]? with
      | none => none
      | some icp =>
        if icp.seq_remote.span_exists icp.local_bytes_total 4 < 4 then
          some (.early st [] [])  -- "no data right now"
        else
          let cache := [(st.input_control.control_port_idx.toNat,
            icp.local_bytes_total, 4)]
          let icp' := { icp with local_bytes_total := icp.local_bytes_total + 4 }
          let cword := cw_in % 2 ^ 32
          let ic := decodeControlWord st.input_control cword
          let st' := { st with
            input_ports := st.input_ports.set
              st.input_control.control_port_idx.toNat icp',
            input_control := ic }
          if ic.remaining_count = 0 then
            if ic.eos_received then
              some (.early { st' with iteration_completed := true } [] cache)
            else none  -- assert(input_control.eos_received)
          else some (.cont st' cache)

/-- Output-control phase of `XferDes::update_control_info` (channel.cc lines
927-966).  The controlling port is an *input* port.  On an end-of-stream
word with zero count the XD completes iteration and pokes every output port
with a zero-length `update_bytes_write`. -/
def refillOutputControl (st : XferDesState) (cw_out : Nat)
    (cache : List (Nat × Nat × Nat)) : Option CtrlStep :=
  if st.output_control.remaining_count ≠ 0 then some (.cont st cache)
  else
    if st.output_control.control_port_idx < 0 then none
    else
      match st.input_ports[st.output_control.control_port_idx.toNat]? with
      | none => none
      | some ocp =>
        if ocp.seq_remote.span_exists ocp.local_bytes_total 4 < 4 then
          some (.early st [] cache)  -- "no data right now"
        else
          let cache' := cache ++ [(st.output_control.control_port_idx.toNat,
            ocp.local_bytes_total, 4)]
          let ocp' := { ocp with local_bytes_total := ocp.local_bytes_total + 4 }
          let cword := cw_out % 2 ^ 32
          if cword = 0 then none  -- assert(cword != 0)
          else
            let oc := decodeControlWord st.output_control cword
            let st' := { st with
              input_ports := st.input_ports.set
                st.output_control.control_port_idx.toNat ocp',
              output_control := oc }
            if oc.remaining_count = 0 then
              if oc.eos_received then
                let poked := pokeOutputs
                  { st' with iteration_completed := true }
                some (.early poked.1 poked.2 cache')
              else none  -- assert(output_control.eos_received)
            else some (.cont st' cache')

/-- `XferDes::update_control_info(rseqcache)` (channel.cc lines 888-971),
with the two control words supplied as oracle arguments.  Returns the byte
budget `min(input_control.remaining_count, output_control.remaining_count)`
(or 0 on an early exit), the new state, the messages sent, and the
read-sequence-cache entries recorded. -/
def update_control_info (st : XferDesState) (cw_in cw_out : Nat) :
    Option (Nat × XferDesState × List Message × List (Nat × Nat × Nat)) := do
  match ← refillInputControl st cw_in with
  | .early st1 msgs cache => some (0, st1, msgs, cache)
  | .cont st1 cache =>
    match ← refillOutputControl st1 cw_out cache with
    | .early st2 msgs cache' => some (0, st2, msgs, cache')
    | .cont st2 cache' =>
      some (min st2.input_control.remaining_count
        st2.output_control.remaining_count, st2, [], cache')

end XferDesState

/-- Port descriptor handed to the `XferDes` constructor
(`XferDesPortInfo`).  `iter_done` is the external iterator oracle. -/
structure XferDesPortInfo where
  peer_guid : Nat
  peer_port_idx : Nat
  ib_offset : Nat
  ib_size : Nat
  is_gather_control : Bool
  is_scatter_control : Bool
  iter_done : Bool
  deriving Repr, DecidableEq

/-- Index of the last port flagged with the given control role (the
constructor's scan, channel.cc lines 718-724, keeps the last match). -/
def lastControlIdx (sel : XferDesPortInfo → Bool) (l : List XferDesPortInfo) :
    Int :=
  l.enum.foldl (fun acc p => if sel p.2 then Int.ofNat p.1 else acc) (-1)

/-- Input-port initialization (channel.cc lines 695-725): `needs_pbt_update`
is never needed for inputs; byte counters start at zero;
`remote_bytes_total` starts at the `size_t(-1)` sentinel. -/
def initInputPort (i : XferDesPortInfo) : XferPort :=
  { peer_guid := i.peer_guid, peer_port_idx := i.peer_port_idx,
    needs_pbt_update := false,
    local_bytes_total := 0, local_bytes_cons := 0,
    remote_bytes_total := SIZE_MAX,
    ib_offset := i.ib_offset, ib_size := i.ib_size,
    seq_local := SequenceAssembler.init, seq_remote := SequenceAssembler.init,
    addrlist_bytes := 0, iter_done := i.iter_done }

/-- Output-port initialization (channel.cc lines 748-783):
`needs_pbt_update` is set exactly when the port has a peer, and a port that
writes into an IB has the first `ib_size` byte locations pre-granted by
`seq_remote.add_span(0, ib_size)`. -/
def initOutputPort (o : XferDesPortInfo) : XferPort :=
  { peer_guid := o.peer_guid, peer_port_idx := o.peer_port_idx,
    needs_pbt_update := o.peer_guid ≠ XFERDES_NO_GUID,
    local_bytes_total := 0, local_bytes_cons := 0,
    remote_bytes_total := SIZE_MAX,
    ib_offset := o.ib_offset, ib_size := o.ib_size,
    seq_local := SequenceAssembler.init,
    seq_remote := if o.ib_size > 0 then
        (SequenceAssembler.init.add_span 0 o.ib_size).1
      else SequenceAssembler.init,
    addrlist_bytes := 0, iter_done := o.iter_done }

/-- The `XferDes` constructor (channel.cc lines 678-796), restricted to the
state the modelled operations touch. -/
def initXferDes (inputs outputs : List XferDesPortInfo) : XferDesState :=
  let gather := lastControlIdx (·.is_gather_control) inputs
  let scatter := lastControlIdx (·.is_scatter_control) inputs
  { input_ports := inputs.map initInputPort,
    output_ports := outputs.map initOutputPort,
    input_control :=
      if gather ≥ 0 then
        { control_port_idx := gather, current_io_port := 0,
          remaining_count := 0, eos_received := false }
      else
        { control_port_idx := -1, current_io_port := 0,
          remaining_count := SIZE_MAX, eos_received := false },
    output_control :=
      if scatter ≥ 0 then
        { control_port_idx := scatter, current_io_port := 0,
          remaining_count := 0, eos_received := false }
      else
        { control_port_idx := -1, current_io_port := 0,
          remaining_count := SIZE_MAX, eos_received := false },
    iteration_completed := false,
    transfer_completed := false }

namespace XferDesState

/-- The port walk of `is_completed` succeeds exactly when every output port
has all of its conservative byte count acknowledged (the `needs_pbt_update`
flip does not affect the check). -/
theorem isCompletedPorts_true_iff (l : List XferPort) :
    (isCompletedPorts l).1 = true ↔
      ∀ p ∈ l, p.seq_local.span_exists 0 p.local_bytes_cons
        = p.local_bytes_cons := by
  induction l with
  | nil => simp [isCompletedPorts]
  | cons p rest ih =>
    by_cases hpbt : p.needs_pbt_update <;>
      by_cases hspan : p.seq_local.span_exists 0 p.local_bytes_cons
        = p.local_bytes_cons <;>
      simp [isCompletedPorts, hpbt, hspan, ih]

end XferDesState

namespace XferDesState

/-- Replace the iterator-oracle fields (`addrlist.bytes_pending()` snapshot
and `iter->done()`) of every port: the effect, on the modelled state, of the
external iterator/address-list activity in `get_addresses`. -/
def setIterOracle (st : XferDesState) (fin fout : Nat → Nat × Bool) :
    XferDesState :=
  { st with
    input_ports := st.input_ports.enum.map (fun q =>
      { q.2 with addrlist_bytes := (fin q.1).1, iter_done := (fin q.1).2 }),
    output_ports := st.output_ports.enum.map (fun q =>
      { q.2 with addrlist_bytes := (fout q.1).1, iter_done := (fout q.1).2 }) }

/-- One step of an XD's lifetime: any of the modelled operations, an
external iterator refresh, or one of the other code sites that publish
`iteration_completed` (`get_addresses` line 1046, the completion paths of
`default_get_requests`, whose pokes are separate `update_bytes_write`
steps). -/
inductive XDStep : XferDesState → XferDesState → List Message → Prop where
  | update_bytes_read (st : XferDesState) (i off sz : Nat) :
      XDStep st (st.update_bytes_read i off sz).1 (st.update_bytes_read i off sz).2
  | update_bytes_write (st : XferDesState) (i off sz : Nat) :
      XDStep st (st.update_bytes_write i off sz).1 (st.update_bytes_write i off sz).2
  | update_pre_bytes_write (st : XferDesState) (i off sz : Nat) :
      XDStep st (st.update_pre_bytes_write i off sz) []
  | update_pre_bytes_total (st : XferDesState) (i tot : Nat) :
      XDStep st (st.update_pre_bytes_total i tot) []
  | update_next_bytes_read (st : XferDesState) (i off sz : Nat) :
      XDStep st (st.update_next_bytes_read i off sz) []
  | is_completed (st : XferDesState) :
      XDStep st st.is_completed.2.1 st.is_completed.2.2
  | record_address_consumption (st : XferDesState) (tb : Nat) :
      XDStep st (st.record_address_consumption tb).2 []
  | update_control_info (st : XferDesState) (cw1 cw2 : Nat)
      (r : Nat × XferDesState × List Message × List (Nat × Nat × Nat))
      (h : st.update_control_info cw1 cw2 = some r) :
      XDStep st r.2.1 r.2.2.1
  | external_iter (st : XferDesState) (fin fout : Nat → Nat × Bool) :
      XDStep st (st.setIterOracle fin fout) []
  | mark_iteration_completed (st : XferDesState) :
      XDStep st { st with iteration_completed := true } []

/-- An execution: a sequence of steps with the concatenated message log. -/
inductive XDExec : XferDesState → XferDesState → List Message → Prop where
  | refl (st : XferDesState) : XDExec st st []
  | step {st1 st2 st3 : XferDesState} {msgs1 msgs2 : List Message} :
      XDExec st1 st2 msgs1 → XDStep st2 st3 msgs2 →
      XDExec st1 st3 (msgs1 ++ msgs2)

/-- The number of `update_pre_bytes_total` messages addressed to peer
`(g, pi)` in a log. -/
def countPbt (msgs : List Message) (g pi : Nat) : Nat :=
  msgs.countP (fun m => match m with
    | .pre_total g' pi' _ => g' == g && pi' == pi
    | _ => false)

/-- The number of output ports that still owe a `pre_bytes_total` to peer
`(g, pi)`. -/
def pbtLive (l : List XferPort) (g pi : Nat) : Nat :=
  l.countP (fun p =>
    p.needs_pbt_update && (p.peer_guid == g) && (p.peer_port_idx == pi))

end XferDesState

/-- Counting after a point update: replacing the element at `i` exchanges
its contribution. -/
theorem countP_set {α : Type _} (l : List α) (i : Nat) (a b : α)
    (pred : α → Bool) (h : l[i]? = some b) :
    (l.set i a).countP pred + (pred b).toNat
      = l.countP pred + (pred a).toNat := by
  induction l generalizing i with
  | nil => simp at h
  | cons x t ih =>
    cases i with
    | zero =>
      simp only [List.getElem?_cons_zero, Option.some_inj] at h
      subst h
      simp only [List.set_cons_zero, List.countP_cons]
      cases hpx : pred x <;> cases hpa : pred a <;> simp [hpx, hpa]
    | succ n =>
      simp only [List.getElem?_cons_succ] at h
      simp only [List.set_cons_succ, List.countP_cons]
      have := ih n h
      cases hpx : pred x <;> simp [hpx] <;> omega

theorem getElem?_set_self {α : Type _} (l : List α) (i : Nat) (a b : α)
    (h : l[i]? = some b) : (l.set i a)[i]? = some a := by
  induction l generalizing i with
  | nil => simp at h
  | cons x t ih =>
    cases i with
    | zero => simp
    | succ n =>
      simp only [List.getElem?_cons_succ] at h ⊢
      simp only [List.set_cons_succ, List.getElem?_cons_succ]
      exact ih n h

theorem getElem?_set_other {α : Type _} (l : List α) (i j : Nat) (a : α)
    (h : i ≠ j) : (l.set i a)[j]? = l[j]? := by
  induction l generalizing i j with
  | nil => simp
  | cons x t ih =>
    cases i with
    | zero =>
      cases j with
      | zero => exact absurd rfl h
      | succ m => simp
    | succ n =>
      cases j with
      | zero => simp
      | succ m =>
        simp only [List.set_cons_succ, List.getElem?_cons_succ]
        exact ih n m (fun hh => h (by rw [hh]))

namespace XferDesState

/-- What one `update_bytes_write` call does to the port list: every port
keeps its identity fields; only port `i` changes, and its `needs_pbt_update`
can only go from set to clear, and only when `iteration_completed` was
observable. -/
theorem ubw_pointwise (st : XferDesState) (i off sz : Nat) (j : Nat)
    (p : XferPort) (hp : st.output_ports[j]? = some p) :
    ∃ p', (st.update_bytes_write i off sz).1.output_ports[j]? = some p' ∧
      p'.peer_guid = p.peer_guid ∧ p'.peer_port_idx = p.peer_port_idx ∧
      p'.local_bytes_total = p.local_bytes_total ∧
      p'.local_bytes_cons = p.local_bytes_cons ∧
      p'.addrlist_bytes = p.addrlist_bytes ∧ p'.iter_done = p.iter_done ∧
      p'.ib_size = p.ib_size ∧ p'.seq_remote = p.seq_remote ∧
      (p'.needs_pbt_update = true → p.needs_pbt_update = true) ∧
      (p.needs_pbt_update = true → p'.needs_pbt_update = false →
        st.iteration_completed = true) := by
  by_cases hij : i = j
  · subst hij
    cases hq : st.output_ports[i]? with
    | none => rw [hq] at hp; exact absurd hp (by simp)
    | some q =>
      rw [hq] at hp
      have hqp : q = p := by injection hp
      subst hqp
      unfold update_bytes_write
      rw [hq]
      dsimp only
      by_cases hpeer : q.peer_guid ≠ XFERDES_NO_GUID
      · rw [if_pos hpeer]
        by_cases hflip : q.needs_pbt_update ∧ st.iteration_completed
        · rw [if_pos hflip]
          dsimp only
          refine ⟨_, getElem?_set_self _ _ _ _ hq, ?_⟩
          exact ⟨rfl, rfl, rfl, rfl, rfl, rfl, rfl, rfl,
            by intro h; simp at h, fun _ _ => hflip.2⟩
        · rw [if_neg hflip]
          dsimp only
          refine ⟨_, getElem?_set_self _ _ _ _ hq, ?_⟩
          refine ⟨rfl, rfl, rfl, rfl, rfl, rfl, rfl, rfl, fun h => h, ?_⟩
          intro h1 h2
          simp only [h1] at h2
          exact Bool.noConfusion h2
      · rw [if_neg hpeer]
        refine ⟨_, getElem?_set_self _ _ _ _ hq, ?_⟩
        refine ⟨rfl, rfl, rfl, rfl, rfl, rfl, rfl, rfl, fun h => h, ?_⟩
        intro h1 h2
        simp only [h1] at h2
        exact Bool.noConfusion h2
  · refine ⟨p, ?_, rfl, rfl, rfl, rfl, rfl, rfl, rfl, rfl, fun h => h,
      fun h1 h2 => absurd (h1 ▸ h2) (by simp)⟩
    unfold update_bytes_write
    cases hq : st.output_ports[i]? with
    | none => rw [hp]
    | some q =>
      dsimp only
      by_cases hpeer : q.peer_guid ≠ XFERDES_NO_GUID
      · rw [if_pos hpeer]
        dsimp only
        rw [getElem?_set_other _ _ _ _ hij, hp]
      · rw [if_neg hpeer]
        dsimp only
        rw [getElem?_set_other _ _ _ _ hij, hp]

/-- The target guid of a cross-XD message. -/
def msgGuid : Message → Nat
  | .pre_write g _ _ _ => g
  | .pre_total g _ _ => g
  | .next_read g _ _ _ => g

/-- `update_bytes_write` only touches the output-port list. -/
theorem ubw_frame (st : XferDesState) (i off sz : Nat) :
    (st.update_bytes_write i off sz).1.input_ports = st.input_ports ∧
    (st.update_bytes_write i off sz).1.input_control = st.input_control ∧
    (st.update_bytes_write i off sz).1.output_control = st.output_control ∧
    (st.update_bytes_write i off sz).1.iteration_completed
      = st.iteration_completed ∧
    (st.update_bytes_write i off sz).1.transfer_completed
      = st.transfer_completed := by
  unfold update_bytes_write
  cases hq : st.output_ports[i]? with
  | none => exact ⟨rfl, rfl, rfl, rfl, rfl⟩
  | some q =>
    dsimp only
    split
    · exact ⟨rfl, rfl, rfl, rfl, rfl⟩
    · exact ⟨rfl, rfl, rfl, rfl, rfl⟩

/-- Balance sheet of `update_bytes_write`: each `pre_bytes_total` message it
sends eliminates exactly one output port that still owed one. -/
theorem ubw_live (st : XferDesState) (i off sz g pi : Nat) :
    countPbt (st.update_bytes_write i off sz).2 g pi
        + pbtLive (st.update_bytes_write i off sz).1.output_ports g pi
      = pbtLive st.output_ports g pi := by
  unfold update_bytes_write
  cases hq : st.output_ports[i]? with
  | none => simp [countPbt, pbtLive]
  | some q =>
    dsimp only
    by_cases hpeer : q.peer_guid ≠ XFERDES_NO_GUID
    · rw [if_pos hpeer]
      by_cases hflip : q.needs_pbt_update = true ∧ st.iteration_completed = true
      · rw [if_pos hflip]
        dsimp only
        have hset := countP_set st.output_ports i
          ({ q with
             needs_pbt_update := false,
             seq_local := (q.seq_local.add_span off sz).1 }) q
          (fun p : XferPort => p.needs_pbt_update && (p.peer_guid == g)
            && (p.peer_port_idx == pi)) hq
        simp only [hflip.1, Bool.true_and, Bool.false_and, Bool.toNat_false]
          at hset
        by_cases h2 : (q.seq_local.add_span off sz).2 > 0 <;>
          [rw [if_pos h2]; rw [if_neg h2]] <;>
          simp only [countPbt, pbtLive, List.countP_cons, List.countP_nil,
            List.cons_append, List.nil_append, List.append_nil] at hset ⊢ <;>
          rcases Bool.eq_false_or_eq_true
            (q.peer_guid == g && q.peer_port_idx == pi) with hb | hb <;>
          simp [hb] at hset ⊢ <;> omega
      · rw [if_neg hflip]
        dsimp only
        have hset := countP_set st.output_ports i
          ({ q with seq_local := (q.seq_local.add_span off sz).1 }) q
          (fun p : XferPort => p.needs_pbt_update && (p.peer_guid == g)
            && (p.peer_port_idx == pi)) hq
        by_cases h2 : (q.seq_local.add_span off sz).2 > 0 <;>
          [rw [if_pos h2]; rw [if_neg h2]] <;>
          simp only [countPbt, pbtLive, List.countP_cons, List.countP_nil,
            List.nil_append] at hset ⊢ <;>
          simp at hset ⊢ <;> omega
    · rw [if_neg hpeer]
      dsimp only
      have hset := countP_set st.output_ports i
        ({ q with seq_local := (q.seq_local.add_span off sz).1 }) q
        (fun p : XferPort => p.needs_pbt_update && (p.peer_guid == g)
          && (p.peer_port_idx == pi)) hq
      simp only [countPbt, pbtLive, List.countP_nil] at hset ⊢
      omega

/-- `update_bytes_write` sends a `pre_bytes_total` only when
`iteration_completed` is observable. -/
theorem ubw_pbt_itc (st : XferDesState) (i off sz : Nat)
    (h : ∃ g pi t, Message.pre_total g pi t ∈ (st.update_bytes_write i off sz).2) :
    st.iteration_completed = true := by
  obtain ⟨g, pi, t, hm⟩ := h
  unfold update_bytes_write at hm
  cases hq : st.output_ports[i]? with
  | none => rw [hq] at hm; simp at hm
  | some q =>
    rw [hq] at hm
    dsimp only at hm
    by_cases hpeer : q.peer_guid ≠ XFERDES_NO_GUID
    · rw [if_pos hpeer] at hm
      by_cases hflip : q.needs_pbt_update = true ∧ st.iteration_completed = true
      · exact hflip.2
      · rw [if_neg hflip] at hm
        dsimp only at hm
        by_cases h2 : (q.seq_local.add_span off sz).2 > 0 <;>
          [rw [if_pos h2] at hm; rw [if_neg h2] at hm] <;> simp at hm
    · rw [if_neg hpeer] at hm
      simp at hm

/-- Every message `update_bytes_write` emits is addressed to the real peer
of the written port (never to the `NO_GUID` sentinel). -/
theorem ubw_msg_guid (st : XferDesState) (i off sz : Nat) :
    ∀ m ∈ (st.update_bytes_write i off sz).2, msgGuid m ≠ XFERDES_NO_GUID := by
  intro m hm
  unfold update_bytes_write at hm
  cases hq : st.output_ports[i]? with
  | none => rw [hq] at hm; simp at hm
  | some q =>
    rw [hq] at hm
    dsimp only at hm
    by_cases hpeer : q.peer_guid ≠ XFERDES_NO_GUID
    · rw [if_pos hpeer] at hm
      dsimp only at hm
      by_cases hflip : q.needs_pbt_update = true ∧ st.iteration_completed = true <;>
        [rw [if_pos hflip] at hm; rw [if_neg hflip] at hm] <;>
        dsimp only at hm <;>
        (by_cases h2 : (q.seq_local.add_span off sz).2 > 0 <;>
          [rw [if_pos h2] at hm; rw [if_neg h2] at hm] <;>
          simp at hm <;>
          (rcases hm with rfl | rfl <;> simpa [msgGuid] using hpeer))
    · rw [if_neg hpeer] at hm
      simp at hm

/-- Unfolding of one step of the completion walk. -/
theorem icp_cons (p : XferPort) (rest : List XferPort) :
    isCompletedPorts (p :: rest)
      = (if p.seq_local.span_exists 0 p.local_bytes_cons ≠ p.local_bytes_cons
          then
           (false,
            (if p.needs_pbt_update then { p with needs_pbt_update := false }
              else p) :: rest,
            if p.needs_pbt_update then
              [Message.pre_total p.peer_guid p.peer_port_idx
                p.local_bytes_total]
            else [])
         else
           ((isCompletedPorts rest).1,
            (if p.needs_pbt_update then { p with needs_pbt_update := false }
              else p) :: (isCompletedPorts rest).2.1,
            (if p.needs_pbt_update then
              [Message.pre_total p.peer_guid p.peer_port_idx
                p.local_bytes_total]
            else []) ++ (isCompletedPorts rest).2.2)) := by
  show (let pbt : XferPort × List Message :=
      if p.needs_pbt_update then
        ({ p with needs_pbt_update := false },
         [Message.pre_total p.peer_guid p.peer_port_idx p.local_bytes_total])
      else (p, []);
    let p' := pbt.1
    let lbc := p'.local_bytes_cons
    if p'.seq_local.span_exists 0 lbc ≠ lbc then
      (false, p' :: rest, pbt.2)
    else
      let r := isCompletedPorts rest
      (r.1, p' :: r.2.1, pbt.2 ++ r.2.2)) = _
  by_cases hpbt : p.needs_pbt_update = true <;> simp only [hpbt, if_true,
    if_false, ite_true, ite_false] <;> rfl

/-- The completion walk preserves the number of ports. -/
theorem icp_len (l : List XferPort) :
    (isCompletedPorts l).2.1.length = l.length := by
  induction l with
  | nil => simp [isCompletedPorts]
  | cons p rest ih =>
    rw [icp_cons]
    by_cases hspan : p.seq_local.span_exists 0 p.local_bytes_cons
        ≠ p.local_bytes_cons <;>
      simp [hspan, ih]

/-- Pointwise effect of the completion walk: each port keeps its identity
fields and can only lose its `needs_pbt_update` flag. -/
theorem icp_pointwise (l : List XferPort) (i : Nat) (p : XferPort)
    (hp : l[i]? = some p) :
    ∃ p', (isCompletedPorts l).2.1[i]? = some p' ∧
      p'.peer_guid = p.peer_guid ∧ p'.peer_port_idx = p.peer_port_idx ∧
      (p'.needs_pbt_update = true → p.needs_pbt_update = true) := by
  induction l generalizing i with
  | nil => simp at hp
  | cons q rest ih =>
    rw [icp_cons]
    cases i with
    | zero =>
      simp only [List.getElem?_cons_zero, Option.some_inj] at hp
      subst hp
      refine ⟨if q.needs_pbt_update then { q with needs_pbt_update := false }
        else q, ?_, ?_, ?_, ?_⟩
      · by_cases hspan : q.seq_local.span_exists 0 q.local_bytes_cons
            ≠ q.local_bytes_cons <;> simp [hspan]
      · by_cases hpbt : q.needs_pbt_update = true <;> simp [hpbt]
      · by_cases hpbt : q.needs_pbt_update = true <;> simp [hpbt]
      · by_cases hpbt : q.needs_pbt_update = true <;> simp [hpbt]
    | succ n =>
      simp only [List.getElem?_cons_succ] at hp
      by_cases hspan : q.seq_local.span_exists 0 q.local_bytes_cons
          ≠ q.local_bytes_cons
      · rw [if_pos hspan]
        exact ⟨p, by simpa using hp, rfl, rfl, fun h => h⟩
      · rw [if_neg hspan]
        obtain ⟨p', h1, h2, h3, h4⟩ := ih n hp
        exact ⟨p', by simpa using h1, h2, h3, h4⟩

/-- Balance sheet of the completion walk. -/
theorem icp_live (l : List XferPort) (g pi : Nat) :
    countPbt (isCompletedPorts l).2.2 g pi
        + pbtLive (isCompletedPorts l).2.1 g pi
      = pbtLive l g pi := by
  induction l with
  | nil => simp [isCompletedPorts, countPbt, pbtLive]
  | cons q rest ih =>
    rw [icp_cons]
    simp only [countPbt, pbtLive] at ih
    by_cases hspan : q.seq_local.span_exists 0 q.local_bytes_cons
        ≠ q.local_bytes_cons
    · rw [if_pos hspan]
      by_cases hpbt : q.needs_pbt_update = true <;>
        simp only [hpbt, ite_true, ite_false, if_true, if_false, countPbt,
          pbtLive, List.countP_cons, List.countP_nil] <;>
        rcases Bool.eq_false_or_eq_true
          (q.peer_guid == g && q.peer_port_idx == pi) with hb | hb <;>
        simp [hb, hpbt] <;> omega
    · rw [if_neg hspan]
      by_cases hpbt : q.needs_pbt_update = true <;>
        simp only [hpbt, ite_true, ite_false, if_true, if_false, countPbt,
          pbtLive, List.countP_cons, List.countP_nil, List.countP_append,
          List.cons_append, List.nil_append] <;>
        rcases Bool.eq_false_or_eq_true
          (q.peer_guid == g && q.peer_port_idx == pi) with hb | hb <;>
        simp [hb, hpbt] <;> omega

/-- Every message of the completion walk is a `pre_bytes_total` of a port
that still owed one. -/
theorem icp_msgs (l : List XferPort) :
    ∀ m ∈ (isCompletedPorts l).2.2, ∃ p ∈ l, p.needs_pbt_update = true ∧
      m = Message.pre_total p.peer_guid p.peer_port_idx p.local_bytes_total := by
  induction l with
  | nil => simp [isCompletedPorts]
  | cons q rest ih =>
    rw [icp_cons]
    intro m hm
    by_cases hspan : q.seq_local.span_exists 0 q.local_bytes_cons
        ≠ q.local_bytes_cons
    · rw [if_pos hspan] at hm
      by_cases hpbt : q.needs_pbt_update = true
      · simp only [hpbt, ite_true, if_true, List.mem_singleton] at hm
        exact ⟨q, by simp, hpbt, hm⟩
      · simp only [hpbt, ite_false, if_false] at hm
        exact absurd hm (List.not_mem_nil m)
    · rw [if_neg hspan] at hm
      by_cases hpbt : q.needs_pbt_update = true
      · simp only [hpbt, ite_true, if_true, List.cons_append, List.nil_append,
          List.mem_cons] at hm
        rcases hm with rfl | hm
        · exact ⟨q, by simp, hpbt, rfl⟩
        · obtain ⟨p, hp1, hp2, hp3⟩ := ih m hm
          exact ⟨p, by simp [hp1], hp2, hp3⟩
      · simp only [hpbt, ite_false, if_false, List.nil_append] at hm
        obtain ⟨p, hp1, hp2, hp3⟩ := ih m hm
        exact ⟨p, by simp [hp1], hp2, hp3⟩

/-- `update_bytes_read` only touches the input-port list, sends no
`pre_bytes_total`, and addresses only a real peer. -/
theorem ubr_props (st : XferDesState) (i off sz : Nat) :
    (st.update_bytes_read i off sz).1.output_ports = st.output_ports ∧
    (st.update_bytes_read i off sz).1.iteration_completed
      = st.iteration_completed ∧
    (st.update_bytes_read i off sz).1.transfer_completed
      = st.transfer_completed ∧
    (∀ g pi, countPbt (st.update_bytes_read i off sz).2 g pi = 0) ∧
    (∀ m ∈ (st.update_bytes_read i off sz).2,
      msgGuid m ≠ XFERDES_NO_GUID) := by
  unfold update_bytes_read
  cases hq : st.input_ports[i]? with
  | none => exact ⟨rfl, rfl, rfl, by simp [countPbt], by simp⟩
  | some q =>
    dsimp only
    by_cases hpeer : q.peer_guid ≠ XFERDES_NO_GUID
    · rw [if_pos hpeer]
      by_cases hinc : (q.seq_local.add_span off sz).2 > 0
      · rw [if_pos hinc]
        refine ⟨rfl, rfl, rfl, by simp [countPbt], ?_⟩
        intro m hm
        simp only [List.mem_singleton] at hm
        subst hm
        simpa [msgGuid] using hpeer
      · rw [if_neg hinc]
        exact ⟨rfl, rfl, rfl, by simp [countPbt], by simp⟩
    · rw [if_neg hpeer]
      exact ⟨rfl, rfl, rfl, by simp [countPbt], by simp⟩

/-- The receiver-side updates only touch the stated port field and emit
nothing; in particular the output-port `needs_pbt_update` flags are
untouched. -/
theorem upbw_props (st : XferDesState) (i off sz : Nat) :
    (st.update_pre_bytes_write i off sz).output_ports = st.output_ports ∧
    (st.update_pre_bytes_write i off sz).iteration_completed
      = st.iteration_completed ∧
    (st.update_pre_bytes_write i off sz).transfer_completed
      = st.transfer_completed := by
  unfold update_pre_bytes_write
  cases hq : st.input_ports[i]? with
  | none => exact ⟨rfl, rfl, rfl⟩
  | some q => exact ⟨rfl, rfl, rfl⟩

theorem upbt_props (st : XferDesState) (i tot : Nat) :
    (st.update_pre_bytes_total i tot).output_ports = st.output_ports ∧
    (st.update_pre_bytes_total i tot).iteration_completed
      = st.iteration_completed ∧
    (st.update_pre_bytes_total i tot).transfer_completed
      = st.transfer_completed := by
  unfold update_pre_bytes_total
  cases hq : st.input_ports[i]? with
  | none => exact ⟨rfl, rfl, rfl⟩
  | some q => exact ⟨rfl, rfl, rfl⟩

/-- `update_next_bytes_read` changes only the addressed output port's
`seq_remote`. -/
theorem unbr_props (st : XferDesState) (i off sz : Nat) :
    (st.update_next_bytes_read i off sz).iteration_completed
      = st.iteration_completed ∧
    (st.update_next_bytes_read i off sz).transfer_completed
      = st.transfer_completed ∧
    (∀ (j : Nat) (p : XferPort), st.output_ports[j]? = some p →
      ∃ p', (st.update_next_bytes_read i off sz).output_ports[j]? = some p' ∧
        p'.peer_guid = p.peer_guid ∧ p'.peer_port_idx = p.peer_port_idx ∧
        p'.needs_pbt_update = p.needs_pbt_update) ∧
    (∀ g pi, pbtLive (st.update_next_bytes_read i off sz).output_ports g pi
      = pbtLive st.output_ports g pi) ∧
    (st.update_next_bytes_read i off sz).output_ports.length
      = st.output_ports.length := by
  unfold update_next_bytes_read
  cases hq : st.output_ports[i]? with
  | none => exact ⟨rfl, rfl, fun j p hp => ⟨p, hp, rfl, rfl, rfl⟩,
      fun _ _ => rfl, rfl⟩
  | some q =>
    dsimp only
    refine ⟨rfl, rfl, ?_, ?_, by simp⟩
    · intro j p hp
      by_cases hij : i = j
      · subst hij
        rw [hq] at hp
        have hqp : q = p := by injection hp
        subst hqp
        exact ⟨_, getElem?_set_self _ _ _ _ hq, rfl, rfl, rfl⟩
      · exact ⟨p, by rw [getElem?_set_other _ _ _ _ hij]; exact hp,
          rfl, rfl, rfl⟩
    · intro g pi
      have hset := countP_set st.output_ports i
        ({ q with seq_remote := (q.seq_remote.add_span off sz).1 }) q
        (fun p : XferPort => p.needs_pbt_update && (p.peer_guid == g)
          && (p.peer_port_idx == pi)) hq
      have hred : ((fun p : XferPort => p.needs_pbt_update
            && (p.peer_guid == g) && (p.peer_port_idx == pi))
          ({ q with seq_remote := (q.seq_remote.add_span off sz).1 }))
          = ((fun p : XferPort => p.needs_pbt_update && (p.peer_guid == g)
            && (p.peer_port_idx == pi)) q) := rfl
      rw [hred] at hset
      simp only [pbtLive]
      omega

/-- The input-side block leaves everything but the input ports alone. -/
theorem racInput_frame (st : XferDesState) (tb : Nat) :
    (racInputSide st tb).1.output_ports = st.output_ports ∧
    (racInputSide st tb).1.input_control = st.input_control ∧
    (racInputSide st tb).1.output_control = st.output_control ∧
    (racInputSide st tb).1.iteration_completed = st.iteration_completed ∧
    (racInputSide st tb).1.transfer_completed = st.transfer_completed := by
  unfold racInputSide
  by_cases h : st.input_control.current_io_port ≥ 0
  · rw [if_pos h]
    cases hq : st.input_ports[st.input_control.current_io_port.toNat]? with
    | none => exact ⟨rfl, rfl, rfl, rfl, rfl⟩
    | some p => exact ⟨rfl, rfl, rfl, rfl, rfl⟩
  · rw [if_neg h]
    exact ⟨rfl, rfl, rfl, rfl, rfl⟩

/-- The output-side block only bumps one output port's byte counters. -/
theorem racOutput_props (st : XferDesState) (tb : Nat) :
    (racOutputSide st tb).1.input_ports = st.input_ports ∧
    (racOutputSide st tb).1.input_control = st.input_control ∧
    (racOutputSide st tb).1.output_control = st.output_control ∧
    (racOutputSide st tb).1.iteration_completed = st.iteration_completed ∧
    (racOutputSide st tb).1.transfer_completed = st.transfer_completed ∧
    (∀ (j : Nat) (p : XferPort), st.output_ports[j]? = some p →
      ∃ p', (racOutputSide st tb).1.output_ports[j]? = some p' ∧
        p'.peer_guid = p.peer_guid ∧ p'.peer_port_idx = p.peer_port_idx ∧
        p'.needs_pbt_update = p.needs_pbt_update) ∧
    (∀ g pi, pbtLive (racOutputSide st tb).1.output_ports g pi
      = pbtLive st.output_ports g pi) ∧
    (racOutputSide st tb).1.output_ports.length
      = st.output_ports.length := by
  unfold racOutputSide
  by_cases h : st.output_control.current_io_port ≥ 0
  · rw [if_pos h]
    cases hq : st.output_ports[st.output_control.current_io_port.toNat]? with
    | none => exact ⟨rfl, rfl, rfl, rfl, rfl,
        fun j p hp => ⟨p, hp, rfl, rfl, rfl⟩, fun _ _ => rfl, rfl⟩
    | some q =>
      dsimp only
      refine ⟨rfl, rfl, rfl, rfl, rfl, ?_, ?_, by simp⟩
      · intro j p hp
        by_cases hij : st.output_control.current_io_port.toNat = j
        · subst hij
          rw [hq] at hp
          have hqp : q = p := by injection hp
          subst hqp
          exact ⟨_, getElem?_set_self _ _ _ _ hq, rfl, rfl, rfl⟩
        · exact ⟨p, by rw [getElem?_set_other _ _ _ _ hij]; exact hp,
            rfl, rfl, rfl⟩
      · intro g pi
        have hset := countP_set st.output_ports
          st.output_control.current_io_port.toNat
          ({ q with
             local_bytes_total := q.local_bytes_total + tb,
             local_bytes_cons := q.local_bytes_cons + tb }) q
          (fun p : XferPort => p.needs_pbt_update && (p.peer_guid == g)
            && (p.peer_port_idx == pi)) hq
        have hred : ((fun p : XferPort => p.needs_pbt_update
              && (p.peer_guid == g) && (p.peer_port_idx == pi))
            ({ q with
               local_bytes_total := q.local_bytes_total + tb,
               local_bytes_cons := q.local_bytes_cons + tb }))
            = ((fun p : XferPort => p.needs_pbt_update && (p.peer_guid == g)
              && (p.peer_port_idx == pi)) q) := rfl
        rw [hred] at hset
        simp only [pbtLive]
        omega
  · rw [if_neg h]
    exact ⟨rfl, rfl, rfl, rfl, rfl, fun j p hp => ⟨p, hp, rfl, rfl, rfl⟩,
      fun _ _ => rfl, rfl⟩

/-- `record_address_consumption` keeps every output port's identity and
`needs_pbt_update`, and can only raise `iteration_completed`. -/
theorem rac_props (st : XferDesState) (tb : Nat) :
    ((st.record_address_consumption tb).2.transfer_completed
      = st.transfer_completed) ∧
    (st.iteration_completed = true →
      (st.record_address_consumption tb).2.iteration_completed = true) ∧
    (∀ (j : Nat) (p : XferPort), st.output_ports[j]? = some p →
      ∃ p', (st.record_address_consumption tb).2.output_ports[j]? = some p' ∧
        p'.peer_guid = p.peer_guid ∧ p'.peer_port_idx = p.peer_port_idx ∧
        p'.needs_pbt_update = p.needs_pbt_update) ∧
    (∀ g pi, pbtLive (st.record_address_consumption tb).2.output_ports g pi
      = pbtLive st.output_ports g pi) ∧
    (st.record_address_consumption tb).2.output_ports.length
      = st.output_ports.length := by
  obtain ⟨hi1, hi2, hi3, hi4, hi5⟩ := racInput_frame st tb
  obtain ⟨ho1, ho2, ho3, ho4, ho5, ho6, ho7, ho8⟩ :=
    racOutput_props (racInputSide st tb).1 tb
  unfold record_address_consumption
  dsimp only
  have hout : ∀ (j : Nat) (p : XferPort), st.output_ports[j]? = some p →
      ∃ p', (racOutputSide (racInputSide st tb).1 tb).1.output_ports[j]?
          = some p' ∧
        p'.peer_guid = p.peer_guid ∧ p'.peer_port_idx = p.peer_port_idx ∧
        p'.needs_pbt_update = p.needs_pbt_update := by
    intro j p hp
    exact ho6 j p (by rw [hi1]; exact hp)
  have hlive : ∀ g pi,
      pbtLive (racOutputSide (racInputSide st tb).1 tb).1.output_ports g pi
        = pbtLive st.output_ports g pi := by
    intro g pi
    rw [ho7, hi1]
  have hlen : (racOutputSide (racInputSide st tb).1 tb).1.output_ports.length
      = st.output_ports.length := by rw [ho8, hi1]
  have htc : (racOutputSide (racInputSide st tb).1 tb).1.transfer_completed
      = st.transfer_completed := by rw [ho5, hi5]
  have hic : (racOutputSide (racInputSide st tb).1 tb).1.iteration_completed
      = st.iteration_completed := by rw [ho4, hi4]
  refine ⟨?_, ?_, ?_, ?_, ?_⟩
  · repeat' split
    all_goals exact htc
  · intro h
    repeat' split
    all_goals first | rfl | exact hic.trans h
  · intro j p hp
    repeat' split
    all_goals exact hout j p hp
  · intro g pi
    repeat' split
    all_goals exact hlive g pi
  · repeat' split
    all_goals exact hlen

end XferDesState

theorem enumFrom_map_getElem? {α β : Type _} (l : List α) (n i : Nat)
    (f : Nat × α → β) :
    ((l.enumFrom n).map f)[i]? = (l[i]?).map (fun a => f (n + i, a)) := by
  induction l generalizing n i with
  | nil => simp
  | cons x t ih =>
    cases i with
    | zero => simp [List.enumFrom]
    | succ m =>
      simp only [List.enumFrom, List.map_cons, List.getElem?_cons_succ,
        ih (n + 1) m]
      have : n + 1 + m = n + (m + 1) := by omega
      rw [this]

theorem enumFrom_map_countP {α β : Type _} (l : List α) (n : Nat)
    (f : Nat × α → β) (pred : β → Bool) (pred' : α → Bool)
    (hf : ∀ i a, pred (f (i, a)) = pred' a) :
    ((l.enumFrom n).map f).countP pred = l.countP pred' := by
  induction l generalizing n with
  | nil => simp
  | cons x t ih =>
    simp only [List.enumFrom, List.map_cons, List.countP_cons, hf, ih (n + 1)]

namespace XferDesState

/-- The external-iterator refresh keeps everything except the oracle
fields. -/
theorem sio_props (st : XferDesState) (fin fout : Nat → Nat × Bool) :
    (st.setIterOracle fin fout).iteration_completed
      = st.iteration_completed ∧
    (st.setIterOracle fin fout).transfer_completed = st.transfer_completed ∧
    (∀ (j : Nat) (p : XferPort), st.output_ports[j]? = some p →
      ∃ p', (st.setIterOracle fin fout).output_ports[j]? = some p' ∧
        p'.peer_guid = p.peer_guid ∧ p'.peer_port_idx = p.peer_port_idx ∧
        p'.needs_pbt_update = p.needs_pbt_update) ∧
    (∀ g pi, pbtLive (st.setIterOracle fin fout).output_ports g pi
      = pbtLive st.output_ports g pi) ∧
    (st.setIterOracle fin fout).output_ports.length
      = st.output_ports.length := by
  refine ⟨rfl, rfl, ?_, ?_, by simp [setIterOracle, List.enum]⟩
  · intro j p hp
    have hg := enumFrom_map_getElem? st.output_ports 0 j
      (fun q => ({ q.2 with
          addrlist_bytes := (fout q.1).1,
          iter_done := (fout q.1).2 } : XferPort))
    rw [hp] at hg
    exact ⟨_, hg, rfl, rfl, rfl⟩
  · intro g pi
    exact enumFrom_map_countP st.output_ports 0 _ _ _ (fun _ _ => rfl)

/-- Frame of the poke loop: only output ports and the message log move. -/
theorem pokeFold_frame (idxs : List Nat) (acc : XferDesState × List Message) :
    (idxs.foldl pokeStep acc).1.iteration_completed
      = acc.1.iteration_completed ∧
    (idxs.foldl pokeStep acc).1.transfer_completed
      = acc.1.transfer_completed := by
  induction idxs generalizing acc with
  | nil => exact ⟨rfl, rfl⟩
  | cons i rest ih =>
    obtain ⟨h1, h2⟩ := ih (pokeStep acc i)
    obtain ⟨_, _, _, h4, h5⟩ := ubw_frame acc.1 i
      (match acc.1.output_ports[i]? with
        | some p => p.local_bytes_total
        | none => 0) 0
    exact ⟨by rw [List.foldl_cons]; rw [h1]; exact h4,
      by rw [List.foldl_cons]; rw [h2]; exact h5⟩

theorem pokeFold_live (idxs : List Nat) (acc : XferDesState × List Message)
    (g pi : Nat) :
    countPbt (idxs.foldl pokeStep acc).2 g pi
        + pbtLive (idxs.foldl pokeStep acc).1.output_ports g pi
      = countPbt acc.2 g pi + pbtLive acc.1.output_ports g pi := by
  induction idxs generalizing acc with
  | nil => rfl
  | cons i rest ih =>
    rw [List.foldl_cons, ih (pokeStep acc i)]
    show countPbt (acc.2 ++ _) g pi + pbtLive (acc.1.update_bytes_write _ _ _).1.output_ports g pi = _
    have := ubw_live acc.1 i
      (match acc.1.output_ports[i]? with
        | some p => p.local_bytes_total
        | none => 0) 0 g pi
    simp only [countPbt, List.countP_append] at *
    omega

theorem pokeFold_pointwise (idxs : List Nat)
    (acc : XferDesState × List Message) (j : Nat) (p : XferPort)
    (hp : acc.1.output_ports[j]? = some p) :
    ∃ p', (idxs.foldl pokeStep acc).1.output_ports[j]? = some p' ∧
      p'.peer_guid = p.peer_guid ∧ p'.peer_port_idx = p.peer_port_idx ∧
      (p'.needs_pbt_update = true → p.needs_pbt_update = true) ∧
      (p.needs_pbt_update = true → p'.needs_pbt_update = false →
        acc.1.iteration_completed = true) := by
  induction idxs generalizing acc p with
  | nil => exact ⟨p, hp, rfl, rfl, fun h => h,
      fun h1 h2 => absurd (h1 ▸ h2) (by simp)⟩
  | cons i rest ih =>
    obtain ⟨p1, hp1, hpe1, hpp1, _, _, _, _, _, _, hmono1, hflip1⟩ :=
      ubw_pointwise acc.1 i
        (match acc.1.output_ports[i]? with
          | some p => p.local_bytes_total
          | none => 0) 0 j p hp
    obtain ⟨p', hp', hpe', hpp', hmono', hflip'⟩ := ih (pokeStep acc i) p1 hp1
    obtain ⟨hic, _⟩ := pokeFold_frame [] (pokeStep acc i)
    obtain ⟨_, _, _, hic2, _⟩ := ubw_frame acc.1 i
      (match acc.1.output_ports[i]? with
        | some p => p.local_bytes_total
        | none => 0) 0
    refine ⟨p', by rw [List.foldl_cons]; exact hp', hpe'.trans hpe1,
      hpp'.trans hpp1, fun h => hmono1 (hmono' h), ?_⟩
    intro h1 h2
    rcases Bool.eq_false_or_eq_true p1.needs_pbt_update with hb | hb
    · rw [← hic2]
      exact hflip' hb h2
    · exact hflip1 h1 hb

theorem pokeFold_msgs_itc (idxs : List Nat)
    (acc : XferDesState × List Message) (g pi t : Nat)
    (hm : Message.pre_total g pi t ∈ (idxs.foldl pokeStep acc).2) :
    Message.pre_total g pi t ∈ acc.2 ∨ acc.1.iteration_completed = true := by
  induction idxs generalizing acc with
  | nil => exact Or.inl hm
  | cons i rest ih =>
    rw [List.foldl_cons] at hm
    rcases ih (pokeStep acc i) hm with h | h
    · show _ ∨ _
      rcases List.mem_append.mp h with h | h
      · exact Or.inl h
      · exact Or.inr (ubw_pbt_itc acc.1 i _ 0 ⟨g, pi, t, h⟩)
    · obtain ⟨_, _, _, hic, _⟩ := ubw_frame acc.1 i
        (match acc.1.output_ports[i]? with
          | some p => p.local_bytes_total
          | none => 0) 0
      exact Or.inr (by rw [← hic]; exact h)

theorem pokeFold_guid (idxs : List Nat)
    (acc : XferDesState × List Message) :
    ∀ m ∈ (idxs.foldl pokeStep acc).2,
      m ∈ acc.2 ∨ msgGuid m ≠ XFERDES_NO_GUID := by
  induction idxs generalizing acc with
  | nil => exact fun m hm => Or.inl hm
  | cons i rest ih =>
    intro m hm
    rw [List.foldl_cons] at hm
    rcases ih (pokeStep acc i) m hm with h | h
    · rcases List.mem_append.mp h with h | h
      · exact Or.inl h
      · exact Or.inr (ubw_msg_guid acc.1 i _ 0 m h)
    · exact Or.inr h

/-- Possible outcomes of the input-control phase: it never touches the
output ports, never sends messages, and can only publish
`iteration_completed`. -/
theorem refillInput_cases (st : XferDesState) (cw : Nat) (r : CtrlStep)
    (h : refillInputControl st cw = some r) :
    (∃ st' cache, r = .cont st' cache ∧ st'.output_ports = st.output_ports ∧
      st'.output_control = st.output_control ∧
      st'.iteration_completed = st.iteration_completed ∧
      st'.transfer_completed = st.transfer_completed) ∨
    (∃ st' cache, r = .early st' [] cache ∧
      st'.output_ports = st.output_ports ∧
      st'.output_control = st.output_control ∧
      (st'.iteration_completed = st.iteration_completed ∨
        st'.iteration_completed = true) ∧
      st'.transfer_completed = st.transfer_completed) := by
  unfold refillInputControl at h
  by_cases h0 : st.input_control.remaining_count ≠ 0
  · rw [if_pos h0] at h
    injection h with h
    exact Or.inl ⟨st, [], h.symm, rfl, rfl, rfl, rfl⟩
  · rw [if_neg h0] at h
    by_cases h1 : st.input_control.control_port_idx < 0
    · rw [if_pos h1] at h; exact absurd h (by simp)
    · rw [if_neg h1] at h
      cases hq : st.input_ports[st.input_control.control_port_idx.toNat]? with
      | none => rw [hq] at h; exact absurd h (by simp)
      | some icp =>
        rw [hq] at h
        dsimp only at h
        by_cases h2 : icp.seq_remote.span_exists icp.local_bytes_total 4 < 4
        · rw [if_pos h2] at h
          injection h with h
          exact Or.inr ⟨st, [], h.symm, rfl, rfl, Or.inl rfl, rfl⟩
        · rw [if_neg h2] at h
          by_cases h3 : (decodeControlWord st.input_control
              (cw % 2 ^ 32)).remaining_count = 0
          · rw [if_pos h3] at h
            by_cases h4 : (decodeControlWord st.input_control
                (cw % 2 ^ 32)).eos_received = true
            · rw [if_pos h4] at h
              injection h with h
              exact Or.inr ⟨_, _, h.symm, rfl, rfl, Or.inr rfl, rfl⟩
            · rw [if_neg h4] at h; exact absurd h (by simp)
          · rw [if_neg h3] at h
            injection h with h
            exact Or.inl ⟨_, _, h.symm, rfl, rfl, rfl, rfl⟩

/-- Possible outcomes of the output-control phase. -/
theorem refillOutput_cases (st : XferDesState) (cw : Nat)
    (cache : List (Nat × Nat × Nat)) (r : CtrlStep)
    (h : refillOutputControl st cw cache = some r) :
    (∃ st' cache', r = .cont st' cache' ∧
      st'.output_ports = st.output_ports ∧
      st'.iteration_completed = st.iteration_completed ∧
      st'.transfer_completed = st.transfer_completed) ∨
    (r = .early st [] cache) ∨
    (∃ stb cache', stb.output_ports = st.output_ports ∧
      stb.iteration_completed = true ∧
      stb.transfer_completed = st.transfer_completed ∧
      r = .early (pokeOutputs stb).1 (pokeOutputs stb).2 cache') := by
  unfold refillOutputControl at h
  by_cases h0 : st.output_control.remaining_count ≠ 0
  · rw [if_pos h0] at h
    injection h with h
    exact Or.inl ⟨st, cache, h.symm, rfl, rfl, rfl⟩
  · rw [if_neg h0] at h
    by_cases h1 : st.output_control.control_port_idx < 0
    · rw [if_pos h1] at h; exact absurd h (by simp)
    · rw [if_neg h1] at h
      cases hq : st.input_ports[st.output_control.control_port_idx.toNat]? with
      | none => rw [hq] at h; exact absurd h (by simp)
      | some ocp =>
        rw [hq] at h
        dsimp only at h
        by_cases h2 : ocp.seq_remote.span_exists ocp.local_bytes_total 4 < 4
        · rw [if_pos h2] at h
          injection h with h
          exact Or.inr (Or.inl h.symm)
        · rw [if_neg h2] at h
          by_cases hcw : cw % 2 ^ 32 = 0
          · rw [if_pos hcw] at h; exact absurd h (by simp)
          · rw [if_neg hcw] at h
            by_cases h3 : (decodeControlWord st.output_control
                (cw % 2 ^ 32)).remaining_count = 0
            · rw [if_pos h3] at h
              by_cases h4 : (decodeControlWord st.output_control
                  (cw % 2 ^ 32)).eos_received = true
              · rw [if_pos h4] at h
                injection h with h
                refine Or.inr (Or.inr ⟨_, _, ?_, ?_, ?_, h.symm⟩) <;> rfl
              · rw [if_neg h4] at h; exact absurd h (by simp)
            · rw [if_neg h3] at h
              injection h with h
              exact Or.inl ⟨_, _, h.symm, rfl, rfl, rfl⟩

theorem ubw_len (st : XferDesState) (i off sz : Nat) :
    (st.update_bytes_write i off sz).1.output_ports.length
      = st.output_ports.length := by
  unfold update_bytes_write
  cases hq : st.output_ports[i]? with
  | none => rfl
  | some q =>
    dsimp only
    split <;> simp

theorem pokeFold_len (idxs : List Nat) (acc : XferDesState × List Message) :
    (idxs.foldl pokeStep acc).1.output_ports.length
      = acc.1.output_ports.length := by
  induction idxs generalizing acc with
  | nil => rfl
  | cons i rest ih =>
    rw [List.foldl_cons, ih (pokeStep acc i)]
    exact ubw_len acc.1 i _ 0

/-- Aggregate facts about a successful `update_control_info` call: output
ports evolve like a sequence of `update_bytes_write`s, the `pre_bytes_total`
balance sheet holds, and messages are only emitted with
`iteration_completed` published. -/
theorem uci_props (st : XferDesState) (cw1 cw2 : Nat)
    (r : Nat × XferDesState × List Message × List (Nat × Nat × Nat))
    (h : st.update_control_info cw1 cw2 = some r) :
    (∀ (j : Nat) (p : XferPort), st.output_ports[j]? = some p →
      ∃ p', r.2.1.output_ports[j]? = some p' ∧
        p'.peer_guid = p.peer_guid ∧ p'.peer_port_idx = p.peer_port_idx ∧
        (p'.needs_pbt_update = true → p.needs_pbt_update = true) ∧
        (p.needs_pbt_update = true → p'.needs_pbt_update = false →
          r.2.1.iteration_completed = true)) ∧
    (∀ g pi, countPbt r.2.2.1 g pi + pbtLive r.2.1.output_ports g pi
      = pbtLive st.output_ports g pi) ∧
    ((∃ g pi t, Message.pre_total g pi t ∈ r.2.2.1) →
      r.2.1.iteration_completed = true) ∧
    (r.2.1.output_ports.length = st.output_ports.length) ∧
    (r.2.1.transfer_completed = st.transfer_completed) ∧
    (∀ m ∈ r.2.2.1, msgGuid m ≠ XFERDES_NO_GUID) ∧
    (st.iteration_completed = true → r.2.1.iteration_completed = true) := by
  rw [update_control_info] at h
  cases hri : refillInputControl st cw1 with
  | none => rw [hri] at h; exact absurd h (by simp)
  | some ri =>
    rw [hri] at h
    simp only [Option.bind_eq_bind, Option.some_bind] at h
    rcases refillInput_cases st cw1 ri hri with
      ⟨st1, cache, hre, ho, hoc, hitc, htc⟩ |
      ⟨st1, cache, hre, ho, hoc, hitc, htc⟩
    · subst hre
      dsimp only at h
      cases hro : refillOutputControl st1 cw2 cache with
      | none => rw [hro] at h; exact absurd h (by simp)
      | some ro =>
        rw [hro] at h
        simp only [Option.bind_eq_bind, Option.some_bind] at h
        rcases refillOutput_cases st1 cw2 cache ro hro with
          ⟨st2, cache2, hre2, ho2, hitc2, htc2⟩ | hre2 |
          ⟨stb, cache2, hob, hitcb, htcb, hre2⟩
        · subst hre2
          dsimp only at h
          injection h with h
          subst h
          refine ⟨?_, ?_, ?_, ?_, ?_, ?_, ?_⟩
          · intro j p hp
            exact ⟨p, by rw [ho2, ho]; exact hp, rfl, rfl, fun hh => hh,
              fun h1 h2 => absurd (h1 ▸ h2) (by simp)⟩
          · intro g pi
            simp only [countPbt, List.countP_nil, ho2, ho]
            omega
          · rintro ⟨g, pi, t, hm⟩
            exact absurd hm (by simp)
          · rw [ho2, ho]
          · rw [htc2, htc]
          · intro m hm
            exact absurd hm (by simp)
          · intro hic
            rw [hitc2, hitc]; exact hic
        · subst hre2
          dsimp only at h
          injection h with h
          subst h
          refine ⟨?_, ?_, ?_, ?_, ?_, ?_, ?_⟩
          · intro j p hp
            exact ⟨p, by rw [ho]; exact hp, rfl, rfl, fun hh => hh,
              fun h1 h2 => absurd (h1 ▸ h2) (by simp)⟩
          · intro g pi
            simp only [countPbt, List.countP_nil, ho]
            omega
          · rintro ⟨g, pi, t, hm⟩
            exact absurd hm (by simp)
          · rw [ho]
          · rw [htc]
          · intro m hm
            exact absurd hm (by simp)
          · intro hic
            rw [hitc]; exact hic
        · subst hre2
          dsimp only at h
          injection h with h
          subst h
          obtain ⟨hpoi, hpot⟩ := pokeFold_frame
            (List.range stb.output_ports.length) (stb, [])
          simp only [pokeOutputs]
          refine ⟨?_, ?_, ?_, ?_, ?_, ?_, ?_⟩
          · intro j p hp
            obtain ⟨p', h1, h2, h3, h4, h5⟩ := pokeFold_pointwise
              (List.range stb.output_ports.length) (stb, []) j p
              (by rw [hob, ho]; exact hp)
            exact ⟨p', h1, h2, h3, h4, fun _ _ => by rw [hpoi]; exact hitcb⟩
          · intro g pi
            have := pokeFold_live
              (List.range stb.output_ports.length) (stb, []) g pi
            simp only [countPbt, List.countP_nil] at this ⊢
            rw [show pbtLive stb.output_ports g pi
              = pbtLive st.output_ports g pi from by rw [hob, ho]] at this
            omega
          · intro _
            rw [hpoi]; exact hitcb
          · rw [pokeFold_len, hob, ho]
          · rw [hpot, htcb, htc]
          · intro m hm
            rcases pokeFold_guid (List.range stb.output_ports.length)
              (stb, []) m hm with hh | hh
            · exact absurd hh (by simp)
            · exact hh
          · intro _
            rw [hpoi]; exact hitcb
    · subst hre
      dsimp only at h
      injection h with h
      subst h
      refine ⟨?_, ?_, ?_, ?_, ?_, ?_, ?_⟩
      · intro j p hp
        refine ⟨p, by rw [ho]; exact hp, rfl, rfl, fun hh => hh,
          fun h1 h2 => absurd (h1 ▸ h2) (by simp)⟩
      · intro g pi
        simp only [countPbt, List.countP_nil, ho]
        omega
      · rintro ⟨g, pi, t, hm⟩
        exact absurd hm (by simp)
      · rw [ho]
      · rw [htc]
      · intro m hm
        exact absurd hm (by simp)
      · intro hic
        rcases hitc with hh | hh
        · rw [hh]; exact hic
        · exact hh

/-- A log containing a `pre_bytes_total` for `(g, pi)` counts at least one. -/
theorem countPbt_pos_of_mem (msgs : List Message) (g pi t : Nat)
    (h : Message.pre_total g pi t ∈ msgs) : 0 < countPbt msgs g pi :=
  List.countP_pos_iff.mpr ⟨_, h, by simp⟩

/-- Every output port with the `NO_GUID` sentinel as peer owes no
`pre_bytes_total`. -/
def noGuidInv (st : XferDesState) : Prop :=
  ∀ p ∈ st.output_ports, p.peer_guid = XFERDES_NO_GUID →
    p.needs_pbt_update = false

/-- Aggregate facts about one `is_completed` call. -/
theorem ic_props (st : XferDesState) :
    st.is_completed.2.1.output_ports.length = st.output_ports.length ∧
    (st.is_completed.2.1.iteration_completed = st.iteration_completed) ∧
    (∀ (j : Nat) (p : XferPort), st.output_ports[j]? = some p →
      ∃ p', st.is_completed.2.1.output_ports[j]? = some p' ∧
        p'.peer_guid = p.peer_guid ∧ p'.peer_port_idx = p.peer_port_idx ∧
        (p'.needs_pbt_update = true → p.needs_pbt_update = true) ∧
        (p.needs_pbt_update = true → p'.needs_pbt_update = false →
          st.is_completed.2.1.iteration_completed = true)) ∧
    (∀ g pi, countPbt st.is_completed.2.2 g pi
        + pbtLive st.is_completed.2.1.output_ports g pi
      = pbtLive st.output_ports g pi) ∧
    ((∃ g pi t, Message.pre_total g pi t ∈ st.is_completed.2.2) →
      st.is_completed.2.1.iteration_completed = true) ∧
    (noGuidInv st → ∀ m ∈ st.is_completed.2.2,
      msgGuid m ≠ XFERDES_NO_GUID) := by
  unfold is_completed
  by_cases htc : st.transfer_completed = true
  · rw [if_pos htc]
    refine ⟨rfl, rfl, ?_, ?_, ?_, ?_⟩
    · intro j p hp
      exact ⟨p, hp, rfl, rfl, fun h => h,
        fun h1 h2 => absurd (h1 ▸ h2) (by simp)⟩
    · intro g pi; simp [countPbt]
    · rintro ⟨g, pi, t, hm⟩; exact absurd hm (by simp)
    · intro _ m hm; exact absurd hm (by simp)
  · rw [if_neg htc]
    by_cases hitc : st.iteration_completed = false
    · rw [if_pos hitc]
      refine ⟨rfl, rfl, ?_, ?_, ?_, ?_⟩
      · intro j p hp
        exact ⟨p, hp, rfl, rfl, fun h => h,
          fun h1 h2 => absurd (h1 ▸ h2) (by simp)⟩
      · intro g pi; simp [countPbt]
      · rintro ⟨g, pi, t, hm⟩; exact absurd hm (by simp)
      · intro _ m hm; exact absurd hm (by simp)
    · rw [if_neg hitc]
      have hitc' : st.iteration_completed = true := by
        rcases Bool.eq_false_or_eq_true st.iteration_completed with hb | hb
        · exact hb
        · exact absurd hb hitc
      clear hitc
      have hports : ∀ (j : Nat) (p : XferPort), st.output_ports[j]? = some p →
          ∃ p', (isCompletedPorts st.output_ports).2.1[j]? = some p' ∧
            p'.peer_guid = p.peer_guid ∧ p'.peer_port_idx = p.peer_port_idx ∧
            (p'.needs_pbt_update = true → p.needs_pbt_update = true) :=
        fun j p hp => icp_pointwise st.output_ports j p hp
      have hmsgs : noGuidInv st → ∀ m ∈ (isCompletedPorts st.output_ports).2.2,
          msgGuid m ≠ XFERDES_NO_GUID := by
        intro hinv m hm
        obtain ⟨p, hp1, hp2, hp3⟩ := icp_msgs st.output_ports m hm
        subst hp3
        intro hg
        have := hinv p hp1 hg
        rw [this] at hp2
        exact Bool.noConfusion hp2
      by_cases hr : (isCompletedPorts st.output_ports).1 = true
      · rw [if_pos hr]
        refine ⟨icp_len _, rfl, ?_, icp_live _, fun _ => hitc', hmsgs⟩
        intro j p hp
        obtain ⟨p', h1, h2, h3, h4⟩ := hports j p hp
        exact ⟨p', h1, h2, h3, h4, fun _ _ => hitc'⟩
      · rw [if_neg hr]
        refine ⟨icp_len _, rfl, ?_, icp_live _, fun _ => hitc', hmsgs⟩
        intro j p hp
        obtain ⟨p', h1, h2, h3, h4⟩ := hports j p hp
        exact ⟨p', h1, h2, h3, h4, fun _ _ => hitc'⟩

/-- Unified facts about one step of the XD lifetime: the output-port list
keeps its length, `iteration_completed` is monotone, every output port keeps
its identity and can lose `needs_pbt_update` only with `iteration_completed`
published, and `pre_bytes_total` messages are conserved against the
`needs_pbt_update` flags. -/
theorem step_props {st st' : XferDesState} {msgs : List Message}
    (h : XDStep st st' msgs) :
    st'.output_ports.length = st.output_ports.length ∧
    (st.iteration_completed = true → st'.iteration_completed = true) ∧
    (∀ (j : Nat) (p : XferPort), st.output_ports[j]? = some p →
      ∃ p', st'.output_ports[j]? = some p' ∧
        p'.peer_guid = p.peer_guid ∧ p'.peer_port_idx = p.peer_port_idx ∧
        (p'.needs_pbt_update = true → p.needs_pbt_update = true) ∧
        (p.needs_pbt_update = true → p'.needs_pbt_update = false →
          st'.iteration_completed = true)) ∧
    (∀ g pi, countPbt msgs g pi + pbtLive st'.output_ports g pi
      = pbtLive st.output_ports g pi) ∧
    ((∃ g pi t, Message.pre_total g pi t ∈ msgs) →
      st'.iteration_completed = true) := by
  cases h with
  | update_bytes_read i off sz =>
    obtain ⟨h1, h2, _, h4, _⟩ := ubr_props st i off sz
    refine ⟨by rw [h1], fun hh => by rw [h2]; exact hh, ?_, ?_, ?_⟩
    · intro j p hp
      refine ⟨p, by rw [h1]; exact hp, rfl, rfl, fun hh => hh, ?_⟩
      intro ha hb
      exact absurd (ha ▸ hb) (by simp)
    · intro g pi
      rw [h1, h4 g pi]
      omega
    · rintro ⟨g, pi, t, hm⟩
      have := countPbt_pos_of_mem _ g pi t hm
      rw [h4 g pi] at this
      exact absurd this (by simp)
  | update_bytes_write i off sz =>
    obtain ⟨_, _, _, h4, _⟩ := ubw_frame st i off sz
    refine ⟨ubw_len st i off sz, fun hh => by rw [h4]; exact hh, ?_,
      ubw_live st i off sz, ?_⟩
    · intro j p hp
      obtain ⟨p', h1, h2, h3, _, _, _, _, _, _, hmono, hflip⟩ :=
        ubw_pointwise st i off sz j p hp
      exact ⟨p', h1, h2, h3, hmono, fun ha hb => by
        rw [h4]; exact hflip ha hb⟩
    · intro hm
      rw [h4]
      exact ubw_pbt_itc st i off sz hm
  | update_pre_bytes_write i off sz =>
    obtain ⟨h1, h2, _⟩ := upbw_props st i off sz
    refine ⟨by rw [h1], fun hh => by rw [h2]; exact hh, ?_, ?_, ?_⟩
    · intro j p hp
      refine ⟨p, by rw [h1]; exact hp, rfl, rfl, fun hh => hh, ?_⟩
      intro ha hb
      exact absurd (ha ▸ hb) (by simp)
    · intro g pi
      rw [h1]
      simp [countPbt]
    · rintro ⟨g, pi, t, hm⟩
      exact absurd hm (by simp)
  | update_pre_bytes_total i tot =>
    obtain ⟨h1, h2, _⟩ := upbt_props st i tot
    refine ⟨by rw [h1], fun hh => by rw [h2]; exact hh, ?_, ?_, ?_⟩
    · intro j p hp
      refine ⟨p, by rw [h1]; exact hp, rfl, rfl, fun hh => hh, ?_⟩
      intro ha hb
      exact absurd (ha ▸ hb) (by simp)
    · intro g pi
      rw [h1]
      simp [countPbt]
    · rintro ⟨g, pi, t, hm⟩
      exact absurd hm (by simp)
  | update_next_bytes_read i off sz =>
    obtain ⟨h1, _, h3, h4, h5⟩ := unbr_props st i off sz
    refine ⟨h5, fun hh => by rw [h1]; exact hh, ?_, ?_, ?_⟩
    · intro j p hp
      obtain ⟨p', hp', he, hpi, hn⟩ := h3 j p hp
      refine ⟨p', hp', he, hpi, fun hh => by rw [← hn]; exact hh, ?_⟩
      intro ha hb
      rw [hn] at hb
      exact absurd (ha ▸ hb) (by simp)
    · intro g pi
      rw [h4]
      simp [countPbt]
    · rintro ⟨g, pi, t, hm⟩
      exact absurd hm (by simp)
  | is_completed =>
    obtain ⟨h1, h2, h3, h4, h5, _⟩ := ic_props st
    exact ⟨h1, fun hh => by rw [h2]; exact hh, h3, h4, h5⟩
  | record_address_consumption tb =>
    obtain ⟨_, h2, h3, h4, h5⟩ := rac_props st tb
    refine ⟨h5, h2, ?_, ?_, ?_⟩
    · intro j p hp
      obtain ⟨p', hp', he, hpi, hn⟩ := h3 j p hp
      refine ⟨p', hp', he, hpi, fun hh => by rw [← hn]; exact hh, ?_⟩
      intro ha hb
      rw [hn] at hb
      exact absurd (ha ▸ hb) (by simp)
    · intro g pi
      rw [h4]
      simp [countPbt]
    · rintro ⟨g, pi, t, hm⟩
      exact absurd hm (by simp)
  | update_control_info cw1 cw2 r hr =>
    obtain ⟨h1, h2, h3, h4, _, _, h7⟩ := uci_props st cw1 cw2 r hr
    exact ⟨h4, h7, h1, h2, h3⟩
  | external_iter fin fout =>
    obtain ⟨h1, _, h3, h4, h5⟩ := sio_props st fin fout
    refine ⟨h5, fun hh => by rw [h1]; exact hh, ?_, ?_, ?_⟩
    · intro j p hp
      obtain ⟨p', hp', he, hpi, hn⟩ := h3 j p hp
      refine ⟨p', hp', he, hpi, fun hh => by rw [← hn]; exact hh, ?_⟩
      intro ha hb
      rw [hn] at hb
      exact absurd (ha ▸ hb) (by simp)
    · intro g pi
      rw [h4]
      simp [countPbt]
    · rintro ⟨g, pi, t, hm⟩
      exact absurd hm (by simp)
  | mark_iteration_completed =>
    refine ⟨rfl, fun _ => rfl, ?_, ?_, fun _ => rfl⟩
    · intro j p hp
      exact ⟨p, hp, rfl, rfl, fun hh => hh, fun _ _ => rfl⟩
    · intro g pi
      simp [countPbt]

/-- Under the `noGuidInv` invariant, no step addresses a message to the
`NO_GUID` sentinel. -/
theorem step_msg_guid {st st' : XferDesState} {msgs : List Message}
    (h : XDStep st st' msgs) (hinv : noGuidInv st) :
    ∀ m ∈ msgs, msgGuid m ≠ XFERDES_NO_GUID := by
  cases h with
  | update_bytes_read i off sz =>
    exact (ubr_props st i off sz).2.2.2.2
  | update_bytes_write i off sz =>
    exact ubw_msg_guid st i off sz
  | update_pre_bytes_write i off sz =>
    intro m hm; exact absurd hm (by simp)
  | update_pre_bytes_total i tot =>
    intro m hm; exact absurd hm (by simp)
  | update_next_bytes_read i off sz =>
    intro m hm; exact absurd hm (by simp)
  | is_completed =>
    exact (ic_props st).2.2.2.2.2 hinv
  | record_address_consumption tb =>
    intro m hm; exact absurd hm (by simp)
  | update_control_info cw1 cw2 r hr =>
    exact (uci_props st cw1 cw2 r hr).2.2.2.2.2.1
  | external_iter fin fout =>
    intro m hm; exact absurd hm (by simp)
  | mark_iteration_completed =>
    intro m hm; exact absurd hm (by simp)

/-- The `noGuidInv` invariant is preserved by every step. -/
theorem step_noGuidInv {st st' : XferDesState} {msgs : List Message}
    (h : XDStep st st' msgs) (hinv : noGuidInv st) : noGuidInv st' := by
  obtain ⟨hlen, _, hpt, _, _⟩ := step_props h
  intro p' hp' hg
  obtain ⟨j, hj⟩ := List.mem_iff_getElem?.mp hp'
  cases hq : st.output_ports[j]? with
  | none =>
    have hle : st.output_ports.length ≤ j := List.getElem?_eq_none_iff.mp hq
    have hlt : j < st'.output_ports.length :=
      (List.getElem?_eq_some.mp hj).1
    rw [hlen] at hlt
    omega
  | some p =>
    obtain ⟨p'', hp'', he, _, hmono, _⟩ := hpt j p hq
    rw [hj] at hp''
    have hpp : p'' = p' := by
      injection hp'' with hx
      exact hx.symm
    subst hpp
    rcases Bool.eq_false_or_eq_true p''.needs_pbt_update with hb | hb
    · have := hinv p (List.mem_iff_getElem?.mpr ⟨j, hq⟩)
        (by rw [← he]; exact hg)
      rw [hmono hb] at this
      exact absurd this (by simp)
    · exact hb

/-- The step facts lifted to whole executions. -/
theorem exec_props {st0 st : XferDesState} {msgs : List Message}
    (h : XDExec st0 st msgs) :
    st.output_ports.length = st0.output_ports.length ∧
    (st0.iteration_completed = true → st.iteration_completed = true) ∧
    (∀ (j : Nat) (p : XferPort), st0.output_ports[j]? = some p →
      ∃ p', st.output_ports[j]? = some p' ∧
        p'.peer_guid = p.peer_guid ∧ p'.peer_port_idx = p.peer_port_idx ∧
        (p'.needs_pbt_update = true → p.needs_pbt_update = true) ∧
        (p.needs_pbt_update = true → p'.needs_pbt_update = false →
          st.iteration_completed = true)) ∧
    (∀ g pi, countPbt msgs g pi + pbtLive st.output_ports g pi
      = pbtLive st0.output_ports g pi) := by
  induction h with
  | refl =>
    refine ⟨rfl, fun hh => hh, ?_, fun g pi => by simp [countPbt]⟩
    intro j p hp
    exact ⟨p, hp, rfl, rfl, fun hh => hh,
      fun h1 h2 => absurd (h1 ▸ h2) (by simp)⟩
  | step hex hstep ih =>
    obtain ⟨ilen, iitc, ipt, ilive⟩ := ih
    obtain ⟨slen, sitc, spt, slive, _⟩ := step_props hstep
    refine ⟨slen.trans ilen, fun hh => sitc (iitc hh), ?_, ?_⟩
    · intro j p hp
      obtain ⟨p1, hp1, he1, hi1, hm1, hf1⟩ := ipt j p hp
      obtain ⟨p', hp', he', hi', hm', hf'⟩ := spt j p1 hp1
      refine ⟨p', hp', he'.trans he1, hi'.trans hi1,
        fun hh => hm1 (hm' hh), ?_⟩
      intro ha hb
      rcases Bool.eq_false_or_eq_true p1.needs_pbt_update with hc | hc
      · exact hf' hc hb
      · exact sitc (hf1 ha hc)
    · intro g pi
      have h1 := ilive g pi
      have h2 := slive g pi
      simp only [countPbt, List.countP_append] at h1 h2 ⊢
      omega

/-- `update_bytes_write` leaves every other output port untouched. -/
theorem ubw_other (st : XferDesState) (i off sz j : Nat) (hij : i ≠ j) :
    (st.update_bytes_write i off sz).1.output_ports[j]?
      = st.output_ports[j]? := by
  unfold update_bytes_write
  cases hq : st.output_ports[i]? with
  | none => rfl
  | some q =>
    dsimp only
    split
    · exact getElem?_set_other _ _ _ _ hij
    · exact getElem?_set_other _ _ _ _ hij

/-- The poke loop only appends to the message log. -/
theorem pokeFold_msgs_mono (idxs : List Nat)
    (acc : XferDesState × List Message) :
    ∀ m ∈ acc.2, m ∈ (idxs.foldl pokeStep acc).2 := by
  induction idxs generalizing acc with
  | nil => exact fun m hm => hm
  | cons i rest ih =>
    intro m hm
    rw [List.foldl_cons]
    exact ih (pokeStep acc i) m (List.mem_append.mpr (Or.inl hm))

/-- When `iteration_completed` is observable, the poke loop sends the owed
`pre_bytes_total` of every output port that has a real peer. -/
theorem pokeFold_sends (idxs : List Nat) (acc : XferDesState × List Message)
    (j : Nat) (p : XferPort) (hj : j ∈ idxs)
    (hp : acc.1.output_ports[j]? = some p)
    (hitc : acc.1.iteration_completed = true)
    (hneed : p.needs_pbt_update = true)
    (hpeer : p.peer_guid ≠ XFERDES_NO_GUID) :
    Message.pre_total p.peer_guid p.peer_port_idx p.local_bytes_total
      ∈ (idxs.foldl pokeStep acc).2 := by
  induction idxs generalizing acc with
  | nil => exact absurd hj (by simp)
  | cons i rest ih =>
    rw [List.foldl_cons]
    by_cases hij : i = j
    · subst hij
      refine pokeFold_msgs_mono rest (pokeStep acc i) _ ?_
      show _ ∈ acc.2 ++ (acc.1.update_bytes_write i _ 0).2
      refine List.mem_append.mpr (Or.inr ?_)
      unfold update_bytes_write
      rw [hp]
      dsimp only
      rw [if_pos hpeer, if_pos ⟨hneed, hitc⟩]
      simp
    · rcases List.mem_cons.mp hj with hh | hh
      · exact absurd hh.symm hij
      · refine ih (pokeStep acc i) hh ?_ ?_
        · show (acc.1.update_bytes_write i _ 0).1.output_ports[j]? = some p
          rw [ubw_other acc.1 i _ 0 j hij]
          exact hp
        · show (acc.1.update_bytes_write i _ 0).1.iteration_completed = true
          rw [(ubw_frame acc.1 i _ 0).2.2.2.1]
          exact hitc

/-- `noGuidInv` is inductive along executions and rules out any message
addressed to the `NO_GUID` sentinel. -/
theorem exec_noGuid {st0 st : XferDesState} {msgs : List Message}
    (h : XDExec st0 st msgs) (hinv : noGuidInv st0) :
    noGuidInv st ∧ ∀ m ∈ msgs, msgGuid m ≠ XFERDES_NO_GUID := by
  induction h with
  | refl =>
    exact ⟨hinv, fun m hm => absurd hm (by simp)⟩
  | step hex hstep ih =>
    obtain ⟨iinv, imsg⟩ := ih
    refine ⟨step_noGuidInv hstep iinv, ?_⟩
    intro m hm
    rcases List.mem_append.mp hm with hh | hh
    · exact imsg m hh
    · exact step_msg_guid hstep iinv m hh

end XferDesState

----------------------------------------------------------------------
-- CLAIM THEOREMS
----------------------------------------------------------------------

open XferDesState

/-- **C2.** `XferDes::is_completed` returns true iff `iteration_completed`
is set and, for every output port,
`seq_local.span_exists(0, local_bytes_cons) == local_bytes_cons` (all
writes acknowledged, measured with the conservative byte count); the call
that returns true sets `transfer_completed` (and a false call leaves it
clear), and once `transfer_completed` is set every call returns true
immediately with no port evaluation, no state change and no messages. -/
theorem c2_is_completed_iff_all_acked (st : XferDesState)
    (h : st.transfer_completed = false) :
    (st.is_completed.1 = true ↔
      (st.iteration_completed = true ∧ ∀ p ∈ st.output_ports,
        p.seq_local.span_exists 0 p.local_bytes_cons = p.local_bytes_cons)) ∧
      st.is_completed.2.1.transfer_completed = st.is_completed.1 ∧
      ∀ st' : XferDesState, st'.transfer_completed = true →
        st'.is_completed = (true, st', []) := by
  refine ⟨?_, ?_, ?_⟩
  · unfold is_completed
    rw [if_neg (by simp [h])]
    by_cases hit : st.iteration_completed
    · rw [if_neg (by simp [hit])]
      by_cases hp : (isCompletedPorts st.output_ports).1 <;>
        simp [hp, hit, ← isCompletedPorts_true_iff, *]
    · have : st.iteration_completed = false := by
        revert hit; cases st.iteration_completed <;> simp
      simp [this]
  · unfold is_completed
    rw [if_neg (by simp [h])]
    by_cases hit : st.iteration_completed
    · rw [if_neg (by simp [hit])]
      by_cases hp : (isCompletedPorts st.output_ports).1 <;> simp [hp, h]
    · have : st.iteration_completed = false := by
        revert hit; cases st.iteration_completed <;> simp
      simp [this, h]
  · intro st' h'
    unfold is_completed
    rw [if_pos h']

/-- Witness for C2: a freshly constructed XD with one already-acknowledged
output port. -/
theorem c2_is_completed_witness :
    ((initXferDes [] []).transfer_completed = false) ∧
      ((initXferDes [] []).is_completed.1 = true ↔
        ((initXferDes [] []).iteration_completed = true ∧
          ∀ p ∈ (initXferDes [] []).output_ports,
            p.seq_local.span_exists 0 p.local_bytes_cons
              = p.local_bytes_cons)) :=
  ⟨by decide, (c2_is_completed_iff_all_acked (initXferDes [] []) (by decide)).1⟩

/-- **C8.** The 4-byte control word `cword` consumed by
`XferDes::update_control_info` decodes as: `remaining_count` = bits 31..8
(a 24-bit unsigned count), `current_io_port` = (bits 6..0) - 1 (so a stored
value 0 means "no target port"), `eos_received` = bit 7; and a control word
whose decoded count is 0 without the eos bit set is a fatal assertion
failure on the input path and on the output path alike. -/
theorem c8_control_word_decode_and_assert (cword : Nat) (ctrl : ControlState)
    (stIn stOut : XferDesState) (icp ocp : XferPort)
    (hzero : cword / 2 ^ 8 % 2 ^ 24 = 0) (heos : cword.testBit 7 = false)
    -- a state about to consume an input-control word
    (hi1 : stIn.input_control.remaining_count = 0)
    (hi2 : ¬ stIn.input_control.control_port_idx < 0)
    (hi3 : stIn.input_ports[stIn.input_control.control_port_idx.toNat]?
      = some icp)
    (hi4 : ¬ icp.seq_remote.span_exists icp.local_bytes_total 4 < 4)
    -- a state about to consume an output-control word
    (ho0 : stOut.input_control.remaining_count ≠ 0)
    (ho1 : stOut.output_control.remaining_count = 0)
    (ho2 : ¬ stOut.output_control.control_port_idx < 0)
    (ho3 : stOut.input_ports[stOut.output_control.control_port_idx.toNat]?
      = some ocp)
    (ho4 : ¬ ocp.seq_remote.span_exists ocp.local_bytes_total 4 < 4) :
    ((decodeControlWord ctrl (cword % 2 ^ 32)).remaining_count
        = cword / 2 ^ 8 % 2 ^ 24 ∧
      (decodeControlWord ctrl (cword % 2 ^ 32)).current_io_port
        = Int.ofNat (cword % 2 ^ 7) - 1 ∧
      (decodeControlWord ctrl (cword % 2 ^ 32)).eos_received
        = cword.testBit 7) ∧
      (∀ cw2, stIn.update_control_info cword cw2 = none) ∧
      (∀ cw1, stOut.update_control_info cw1 cword = none) := by
  have hshift : (cword % 2 ^ 32) >>> 8 = cword / 2 ^ 8 % 2 ^ 24 := by
    rw [Nat.shiftRight_eq_div_pow,
      show (2 : Nat) ^ 32 = 2 ^ 8 * 2 ^ 24 from by norm_num,
      Nat.mod_mul_right_div_self]
  have hmod : (cword % 2 ^ 32) % 128 = cword % 2 ^ 7 := by
    rw [show (128 : Nat) = 2 ^ 7 from rfl]
    exact Nat.mod_mod_of_dvd cword (by norm_num)
  have hand : ((cword % 2 ^ 32) &&& 128 ≠ 0) = (cword.testBit 7 = true) := by
    rw [show (128 : Nat) = 2 ^ 7 from rfl, Nat.and_two_pow,
      Nat.testBit_mod_two_pow]
    norm_num
  have heos' : decide ((cword % 2 ^ 32) &&& 128 ≠ 0) = cword.testBit 7 := by
    cases hb : cword.testBit 7
    · have h0 : ¬ ((cword % 2 ^ 32) &&& 128 ≠ 0) := by
        rw [hand, hb]; simp
      simp only [decide_eq_false_iff_not]
      exact h0
    · have h1 : (cword % 2 ^ 32) &&& 128 ≠ 0 := by rw [hand]; exact hb
      simp only [decide_eq_true_eq]
      exact h1
  have hdec : ∀ c : ControlState,
      decodeControlWord c (cword % 2 ^ 32)
        = { c with
            remaining_count := cword / 2 ^ 8 % 2 ^ 24,
            current_io_port := Int.ofNat (cword % 2 ^ 7) - 1,
            eos_received := cword.testBit 7 } := by
    intro c
    simp only [decodeControlWord, hshift, hmod, heos']
  have hzero' : cword / 256 % 16777216 = 0 := hzero
  refine ⟨⟨by rw [hdec], by rw [hdec], by rw [hdec]⟩, ?_, ?_⟩
  · intro cw2
    have hrin : refillInputControl stIn cword = none := by
      unfold refillInputControl
      rw [if_neg (by simp [hi1]), if_neg hi2, hi3]
      dsimp only
      rw [if_neg hi4, hdec]
      simp [hzero', heos]
    rw [update_control_info, hrin]
    rfl
  · intro cw1
    have hrin : refillInputControl stOut cw1 = some (.cont stOut []) := by
      unfold refillInputControl; rw [if_pos ho0]
    have hrout : refillOutputControl stOut cword [] = none := by
      unfold refillOutputControl
      rw [if_neg (by simp [ho1]), if_neg ho2, ho3]
      dsimp only
      rw [if_neg ho4]
      by_cases hcw : cword % 2 ^ 32 = 0
      · rw [if_pos hcw]
      · rw [if_neg hcw, hdec]
        simp [hzero', heos]
    rw [update_control_info, hrin]
    show (refillOutputControl stOut cword []).bind _ = none
    rw [hrout]
    rfl

/-- An input control port with 4 bytes of control data already granted by
the upstream producer. -/
def readyCtrlPort : XferPort :=
  { peer_guid := 1, peer_port_idx := 0, needs_pbt_update := false,
    local_bytes_total := 0, local_bytes_cons := 0,
    remote_bytes_total := SIZE_MAX, ib_offset := 0, ib_size := 4,
    seq_local := SequenceAssembler.init,
    seq_remote := (SequenceAssembler.init.add_span 0 4).1,
    addrlist_bytes := 0, iter_done := false }

/-- A control descriptor literal. -/
def mkCtrl (idx io : Int) (rem : Nat) (eos : Bool) : ControlState :=
  { control_port_idx := idx, current_io_port := io,
    remaining_count := rem, eos_received := eos }

/-- A state about to consume an input-control word from port 0. -/
def c8InState : XferDesState :=
  { input_ports := [readyCtrlPort], output_ports := [],
    input_control := mkCtrl 0 0 0 false,
    output_control := mkCtrl (-1) 0 SIZE_MAX false,
    iteration_completed := false, transfer_completed := false }

/-- A state about to consume an output-control word from input port 0. -/
def c8OutState : XferDesState :=
  { input_ports := [readyCtrlPort], output_ports := [],
    input_control := mkCtrl (-1) 0 SIZE_MAX false,
    output_control := mkCtrl 0 0 0 false,
    iteration_completed := false, transfer_completed := false }

/-- Witness for C8 at the concrete ill-formed word `cword = 5` (decoded
count 0, eos clear, target port 4): decode matches the bit-field reading
and both control paths hit the fatal assertion. -/
theorem c8_control_word_witness :
    ((5 : Nat) / 2 ^ 8 % 2 ^ 24 = 0) ∧
      (c8InState.update_control_info 5 0 = none) ∧
      (c8OutState.update_control_info 0 5 = none) := by
  have h := c8_control_word_decode_and_assert 5 (mkCtrl 0 0 0 false)
    c8InState c8OutState readyCtrlPort readyCtrlPort
    (by decide) (by decide)
    (by decide) (by decide) (by decide) (by decide)
    (by decide) (by decide) (by decide) (by decide) (by decide)
  exact ⟨by decide, h.2.1 0, h.2.2 0⟩

/-- C6. Along every execution of the modelled step relation every output
port keeps its peer identity, its `needs_pbt_update` flag only ever goes
from set to clear (so it flips at most once over the XD lifetime), a
cleared flag is observable only with `iteration_completed` published, and
the `update_pre_bytes_total` messages sent to a peer `(g, pi)` plus the
ports still owing one are conserved; in particular if at most one port
addresses `(g, pi)`, at most one `update_pre_bytes_total` is ever sent to
it, from whichever operation clears the flag first. -/
theorem c6_needs_pbt_update_flips_once {st0 st : XferDesState}
    {msgs : List Message} (hex : XDExec st0 st msgs) :
    (∀ (j : Nat) (p0 : XferPort), st0.output_ports[j]? = some p0 →
      ∃ p, st.output_ports[j]? = some p ∧
        p.peer_guid = p0.peer_guid ∧ p.peer_port_idx = p0.peer_port_idx ∧
        (p.needs_pbt_update = true → p0.needs_pbt_update = true) ∧
        (p0.needs_pbt_update = true → p.needs_pbt_update = false →
          st.iteration_completed = true)) ∧
    (∀ g pi, countPbt msgs g pi + pbtLive st.output_ports g pi
      = pbtLive st0.output_ports g pi) ∧
    (∀ g pi, pbtLive st0.output_ports g pi ≤ 1 → countPbt msgs g pi ≤ 1) := by
  obtain ⟨_, _, hpt, hlive⟩ := exec_props hex
  refine ⟨hpt, hlive, fun g pi hle => ?_⟩
  have := hlive g pi
  omega

/-- An XD with one upstream-fed input that is already exhausted (peer is
user memory, iterator done, empty address list) and one IB output to peer
guid 1: `record_address_consumption` publishes `iteration_completed` here,
and the next `update_bytes_write` then emits both the `pre_bytes_total` and
a `pre_bytes_write`. -/
def c3Init : XferDesState :=
  initXferDes [⟨XFERDES_NO_GUID, 0, 0, 0, false, false, true⟩]
    [⟨1, 0, 0, 16, false, false, false⟩]

/-- Witness for C6: a concrete two-step execution
(`record_address_consumption 0`, then `update_bytes_write 0 0 8`) sends its
single peer at most one `pre_bytes_total`. -/
theorem c6_needs_pbt_update_flips_once_witness :
    countPbt ((([] : List Message) ++ []) ++
        ((c3Init.record_address_consumption 0).2.update_bytes_write 0 0 8).2)
      1 0 ≤ 1 :=
  (c6_needs_pbt_update_flips_once
      (XDExec.step
        (XDExec.step (XDExec.refl c3Init)
          (XDStep.record_address_consumption c3Init 0))
        (XDStep.update_bytes_write
          (c3Init.record_address_consumption 0).2 0 0 8))).2.2
    1 0 (by decide)

/-- Counterexample to C3 as stated: there is an execution of the step
relation in which a `pre_bytes_write` for a port is emitted after the
`pre_bytes_total` for that same port (one `update_bytes_write` call sends
the total first, then the write). -/
theorem c3_pre_write_after_pre_total_counterexample :
    ¬ ∀ (ins outs : List XferDesPortInfo) (st : XferDesState)
        (msgs : List Message),
        XDExec (initXferDes ins outs) st msgs →
        ∀ (i j g pi t off sz : Nat), i < j →
          msgs[i]? = some (Message.pre_total g pi t) →
          msgs[j]? ≠ some (Message.pre_write g pi off sz) := by
  intro hall
  have hex : XDExec c3Init
      ((c3Init.record_address_consumption 0).2.update_bytes_write 0 0 8).1
      ((([] : List Message) ++ []) ++
        ((c3Init.record_address_consumption 0).2.update_bytes_write 0 0 8).2) :=
    XDExec.step
      (XDExec.step (XDExec.refl c3Init)
        (XDStep.record_address_consumption c3Init 0))
      (XDStep.update_bytes_write (c3Init.record_address_consumption 0).2 0 0 8)
  exact hall _ _ _ _ hex 0 1 1 0 0 0 8 (by decide) (by decide) (by decide)

/-- C3 (amended). One `update_bytes_write` call emits, in this order: the
owed `pre_bytes_total` (only if `iteration_completed` is observable) and
then the `pre_bytes_write` for the contiguous growth — so within a call the
total comes FIRST, the reverse of the spec's ordering sentence; a
`pre_bytes_total` is never emitted before `iteration_completed` is
observable. -/
theorem c3_pre_total_emitted_before_pre_write (st : XferDesState)
    (i off sz : Nat) :
    ((st.update_bytes_write i off sz).2 = [] ∨
     (∃ g pi off' amt,
       (st.update_bytes_write i off sz).2
         = [Message.pre_write g pi off' amt]) ∨
     (∃ g pi t,
       (st.update_bytes_write i off sz).2 = [Message.pre_total g pi t]) ∨
     (∃ g pi t off' amt,
       (st.update_bytes_write i off sz).2
         = [Message.pre_total g pi t, Message.pre_write g pi off' amt])) ∧
    ((∃ g pi t,
        Message.pre_total g pi t ∈ (st.update_bytes_write i off sz).2) →
      st.iteration_completed = true) := by
  refine ⟨?_, ubw_pbt_itc st i off sz⟩
  unfold update_bytes_write
  cases hq : st.output_ports[i]? with
  | none => exact Or.inl rfl
  | some q =>
    dsimp only
    by_cases hpeer : q.peer_guid ≠ XFERDES_NO_GUID
    · rw [if_pos hpeer]
      dsimp only
      by_cases hflip : q.needs_pbt_update = true ∧ st.iteration_completed = true
      · rw [if_pos hflip]
        by_cases h2 : (q.seq_local.add_span off sz).2 > 0
        · rw [if_pos h2]
          exact Or.inr (Or.inr (Or.inr ⟨_, _, _, _, _, rfl⟩))
        · rw [if_neg h2]
          exact Or.inr (Or.inr (Or.inl ⟨q.peer_guid, q.peer_port_idx,
            q.local_bytes_total, by simp⟩))
      · rw [if_neg hflip]
        by_cases h2 : (q.seq_local.add_span off sz).2 > 0
        · rw [if_pos h2]
          exact Or.inr (Or.inl ⟨q.peer_guid, q.peer_port_idx, off,
            (q.seq_local.add_span off sz).2, by simp⟩)
        · rw [if_neg h2]
          exact Or.inl (by simp)
    · rw [if_neg hpeer]
      exact Or.inl rfl

/-- Witness for the amended C3 at the concrete two-step history: the call
emits exactly total-then-write, and `iteration_completed` was indeed
observable. -/
theorem c3_pre_total_emitted_before_pre_write_witness :
    (((c3Init.record_address_consumption 0).2.update_bytes_write 0 0 8).2
      = [Message.pre_total 1 0 0, Message.pre_write 1 0 0 8]) ∧
    (c3Init.record_address_consumption 0).2.iteration_completed = true :=
  ⟨by decide,
   (c3_pre_total_emitted_before_pre_write
       (c3Init.record_address_consumption 0).2 0 0 8).2
     ⟨1, 0, 0, by decide⟩⟩

/-- Modelled from the spec: C5's sentence places the completion pokes (the
zero-length `update_bytes_write` on every output) inside
`record_address_consumption` itself; this follower definition performs them
there, for comparison with the source's function (which sends nothing). -/
def record_address_consumption_spec (st : XferDesState) (total_bytes : Nat) :
    Bool × XferDesState × List Message :=
  let r := st.record_address_consumption total_bytes
  if r.1 then
    let pk := pokeOutputs r.2
    (true, pk.1, pk.2)
  else (false, r.2, [])

/-- Counterexample to C5 as stated: at a state where
`record_address_consumption` publishes completion, the spec-follower emits
completion pokes from inside the call, but the source's call emits nothing
(its step carries the empty message list); the pokes actually happen later,
in `update_control_info`'s end-of-stream path. -/
theorem c5_rac_emits_no_pokes_counterexample :
    ∃ (st : XferDesState) (tb : Nat),
      (st.record_address_consumption tb).1 = true ∧
      (record_address_consumption_spec st tb).2.2 ≠ ([] : List Message) ∧
      XDStep st (st.record_address_consumption tb).2 [] :=
  ⟨c3Init, 0, by decide, by decide,
   XDStep.record_address_consumption c3Init 0⟩

/-- C5 (amended). `record_address_consumption` decrements both control
`remaining_count`s by `total_bytes` (wrapping mod `2^64`), publishes
`iteration_completed` exactly when a side is done, and sends nothing; the
zero-length completion pokes are issued by `update_control_info`'s
end-of-stream path via the poke loop, which sends the owed
`pre_bytes_total` of every output port with a real peer once
`iteration_completed` is observable. -/
theorem c5_rac_decrements_and_control_pokes (st : XferDesState) (tb : Nat) :
    ((st.record_address_consumption tb).2.input_control.remaining_count
      = sub64 st.input_control.remaining_count tb) ∧
    ((st.record_address_consumption tb).2.output_control.remaining_count
      = sub64 st.output_control.remaining_count tb) ∧
    ((st.record_address_consumption tb).2.iteration_completed
      = (st.iteration_completed || (st.record_address_consumption tb).1)) ∧
    (∀ (j : Nat) (p : XferPort), st.iteration_completed = true →
      st.output_ports[j]? = some p → p.needs_pbt_update = true →
      p.peer_guid ≠ XFERDES_NO_GUID →
      Message.pre_total p.peer_guid p.peer_port_idx p.local_bytes_total
        ∈ (pokeOutputs st).2) := by
  have hi2 := (racInput_frame st tb).2.1
  have hi4 := (racInput_frame st tb).2.2.2.1
  have hi3 := (racInput_frame st tb).2.2.1
  have ho2 := (racOutput_props (racInputSide st tb).1 tb).2.1
  have ho3 := (racOutput_props (racInputSide st tb).1 tb).2.2.1
  have ho4 := (racOutput_props (racInputSide st tb).1 tb).2.2.2.1
  refine ⟨?_, ?_, ?_, ?_⟩
  · unfold record_address_consumption
    dsimp only
    repeat' split
    all_goals rw [ho2, hi2]
  · unfold record_address_consumption
    dsimp only
    repeat' split
    all_goals rw [ho3, hi3]
  · unfold record_address_consumption
    dsimp only
    repeat' split
    all_goals simp [ho4, hi4]
  · intro j p hitc hp hneed hpeer
    have hj : j < st.output_ports.length := (List.getElem?_eq_some.mp hp).1
    exact pokeFold_sends (List.range st.output_ports.length) (st, []) j p
      (List.mem_range.mpr hj) hp hitc hneed hpeer

/-- Witness for the amended C5 at the concrete completed state: the poke
loop sends the owed `pre_bytes_total` of the single output port. -/
theorem c5_rac_decrements_and_control_pokes_witness :
    Message.pre_total 1 0 0
      ∈ (pokeOutputs (c3Init.record_address_consumption 0).2).2 :=
  (c5_rac_decrements_and_control_pokes
      (c3Init.record_address_consumption 0).2 0).2.2.2 0
    ⟨1, 0, true, 0, 0, SIZE_MAX, 0, 16, SequenceAssembler.init,
      (SequenceAssembler.init.add_span 0 16).1, 0, false⟩
    (by decide) (by decide) (by decide) (by decide)

----------------------------------------------------------------------
-- C7: the IB window protocol between a producer XD and a consumer XD
----------------------------------------------------------------------

/-- One IB-mediated edge: the downstream (consumer) XD whose input port
reads from the IB, the upstream (producer) XD whose output port writes into
it, and the `update_next_bytes_read` messages sent by the consumer but not
yet applied by the producer (the AM transport delivers them in order). -/
structure IBEdge where
  consumer : XferDesState
  producer : XferDesState
  inflight : List Message

/-- The two code sites of the edge: the consumer's `update_bytes_read`
(which forwards its contiguous growth) and the producer applying a
forwarded `update_next_bytes_read`.  The consumer's spans are fresh
(disjoint from everything it has read), as its own reads are. -/
inductive IBEdgeStep (ci pj : Nat) : IBEdge → IBEdge → Prop where
  | consumer_read (e : IBEdge) (off sz : Nat) (p : XferPort)
      (hp : e.consumer.input_ports[ci]? = some p) (h0 : 0 < sz)
      (hb : off + sz + p.ib_size ≤ SIZE_MAX)
      (hdisj : ∀ x, off ≤ x → x < off + sz → ¬ covered p.seq_local x) :
      IBEdgeStep ci pj e
        { consumer := (e.consumer.update_bytes_read ci off sz).1,
          producer := e.producer,
          inflight := e.inflight ++ (e.consumer.update_bytes_read ci off sz).2 }
  | producer_apply (e : IBEdge) (g pi o a : Nat) (rest : List Message)
      (h : e.inflight = Message.next_read g pi o a :: rest) :
      IBEdgeStep ci pj e
        { consumer := e.consumer,
          producer := e.producer.update_next_bytes_read pj o a,
          inflight := rest }

/-- Total bytes granted by a list of in-flight `next_read` messages. -/
def grantsSum (msgs : List Message) : Nat :=
  msgs.foldr (fun m acc => match m with
    | Message.next_read _ _ _ a => a + acc
    | _ => acc) 0

/-- The in-flight grants are consecutive: each starts where the previous
(or the producer's already-granted window) ends. -/
def grantsChain (hi : Nat) : List Message → Prop
  | [] => True
  | Message.next_read _ _ o a :: rest => o = hi ∧ 0 < a ∧
      grantsChain (hi + a) rest
  | _ :: _ => False

theorem grantsSum_append_nr (l : List Message) (g pi o a : Nat) :
    grantsSum (l ++ [Message.next_read g pi o a]) = grantsSum l + a := by
  induction l with
  | nil => simp [grantsSum]
  | cons m rest ih =>
    cases m <;> simp [grantsSum] at ih ⊢ <;> omega

theorem grantsChain_append_nr (l : List Message) (hi g pi a : Nat)
    (hch : grantsChain hi l) (ha : 0 < a) :
    grantsChain hi (l ++ [Message.next_read g pi (hi + grantsSum l) a]) := by
  induction l generalizing hi with
  | nil => exact ⟨by simp [grantsSum], ha, trivial⟩
  | cons m rest ih =>
    cases m with
    | next_read g' pi' o' a' =>
      obtain ⟨h1, h2, h3⟩ := hch
      refine ⟨h1, h2, ?_⟩
      have := ih (hi + a') h3
      have hs : hi + grantsSum (Message.next_read g' pi' o' a' :: rest)
          = hi + a' + grantsSum rest := by
        simp [grantsSum]; omega
      rw [hs]
      exact this
    | pre_write g' pi' o' a' => exact absurd hch (by simp [grantsChain])
    | pre_total g' pi' t' => exact absurd hch (by simp [grantsChain])

/-- The edge invariant: the consumer's read prefix is well-formed and its
recorded bytes stay clear of the address-space top; the producer's granted
window is exactly an interval `[0, hi)`; the in-flight grants chain from
`hi` and account exactly for the gap to the consumer's prefix plus
`ib_size`. -/
def IBInv (ci pj S : Nat) (e : IBEdge) : Prop :=
  ∃ (pc pp : XferPort) (hi : Nat),
    e.consumer.input_ports[ci]? = some pc ∧
    pc.ib_size = S ∧ pc.peer_guid ≠ XFERDES_NO_GUID ∧
    WF pc.seq_local ∧
    (∀ x, covered pc.seq_local x → x + S < SIZE_MAX) ∧
    e.producer.output_ports[pj]? = some pp ∧
    WF pp.seq_remote ∧
    (∀ x, covered pp.seq_remote x ↔ x < hi) ∧
    grantsChain hi e.inflight ∧
    hi + grantsSum e.inflight = pc.seq_local.contig_amount + S

/-- In an invariant state the consumer's prefix stays below the
address-space top (room for one more IB window). -/
theorem IBInv_contig_bound (a : SequenceAssembler) (S : Nat)
    (hwf : WF a) (hS : 0 < S) (hSm : S ≤ SIZE_MAX)
    (hcov : ∀ x, covered a x → x + S < SIZE_MAX) :
    a.contig_amount + S ≤ SIZE_MAX := by
  by_contra hc
  push_neg at hc
  have hx : SIZE_MAX - S < a.contig_amount := by omega
  have := (contig_characterize a hwf).1 (SIZE_MAX - S) hx
  have := hcov _ this
  omega

/-- Exact effect of `update_bytes_read` on the addressed input port and its
message. -/
theorem ubr_spec (st : XferDesState) (ci off sz : Nat) (p : XferPort)
    (hp : st.input_ports[ci]? = some p) :
    (st.update_bytes_read ci off sz).1.input_ports[ci]?
      = some { p with seq_local := (p.seq_local.add_span off sz).1 } ∧
    (st.update_bytes_read ci off sz).2
      = (if p.peer_guid ≠ XFERDES_NO_GUID then
          if (p.seq_local.add_span off sz).2 > 0 then
            [Message.next_read p.peer_guid p.peer_port_idx
              (off + p.ib_size) (p.seq_local.add_span off sz).2]
          else []
        else []) := by
  unfold update_bytes_read
  rw [hp]
  dsimp only
  by_cases hpeer : p.peer_guid ≠ XFERDES_NO_GUID
  · rw [if_pos hpeer, if_pos hpeer]
    by_cases hinc : (p.seq_local.add_span off sz).2 > 0
    · rw [if_pos hinc, if_pos hinc]
      exact ⟨getElem?_set_self _ _ _ _ hp, rfl⟩
    · rw [if_neg hinc, if_neg hinc]
      exact ⟨getElem?_set_self _ _ _ _ hp, rfl⟩
  · rw [if_neg hpeer, if_neg hpeer]
    exact ⟨getElem?_set_self _ _ _ _ hp, rfl⟩

/-- Exact effect of `update_next_bytes_read` on the addressed output
port. -/
theorem unbr_spec (st : XferDesState) (pj o a : Nat) (p : XferPort)
    (hp : st.output_ports[pj]? = some p) :
    (st.update_next_bytes_read pj o a).output_ports[pj]?
      = some { p with seq_remote := (p.seq_remote.add_span o a).1 } := by
  unfold update_next_bytes_read
  rw [hp]
  dsimp only
  exact getElem?_set_self _ _ _ _ hp

/-- The edge invariant is preserved by both protocol steps. -/
theorem ibinv_preserved (ci pj S : Nat) (hS : 0 < S) (hSm : S ≤ SIZE_MAX)
    {e e' : IBEdge} (hstep : IBEdgeStep ci pj e e') (hinv : IBInv ci pj S e) :
    IBInv ci pj S e' := by
  obtain ⟨pc, pp, hi, hpc, hib, hpeer, hwfc, hcovb, hpp, hwfp, hcovp, hch,
    hsum⟩ := hinv
  cases hstep with
  | consumer_read off sz p hp h0 hb hdisj =>
    rw [hpc] at hp
    have hppc : p = pc := by
      injection hp with hx
      exact hx.symm
    subst hppc
    have hdelta := add_span_delta p.seq_local off sz
    have hwf' := add_span_WF p.seq_local off sz hwfc h0 (by omega) hdisj
    have hcov' := add_span_covered p.seq_local off sz hwfc h0 hdisj
    obtain ⟨hget, hmsgs⟩ := ubr_spec e.consumer ci off sz p hpc
    refine ⟨{ p with seq_local := (p.seq_local.add_span off sz).1 }, pp, hi,
      hget, hib, hpeer, hwf', ?_, hpp, hwfp, hcovp, ?_, ?_⟩
    · intro x hx
      rcases (hcov' x).mp hx with hh | hh
      · exact hcovb x hh
      · omega
    · show grantsChain hi (e.inflight ++ (e.consumer.update_bytes_read ci off sz).2)
      rw [hmsgs, if_pos hpeer]
      by_cases hinc : (p.seq_local.add_span off sz).2 > 0
      · rw [if_pos hinc]
        have hoff : off = p.seq_local.contig_amount :=
          hdelta.2 (by omega)
        have ho : off + p.ib_size = hi + grantsSum e.inflight := by
          rw [hoff, hib]
          omega
        rw [ho]
        exact grantsChain_append_nr e.inflight hi _ _ _ hch hinc
      · rw [if_neg hinc]
        rw [List.append_nil]
        exact hch
    · show hi + grantsSum (e.inflight ++ (e.consumer.update_bytes_read ci off sz).2)
        = ({ p with seq_local := (p.seq_local.add_span off sz).1 } : XferPort).seq_local.contig_amount + S
      rw [hmsgs, if_pos hpeer]
      by_cases hinc : (p.seq_local.add_span off sz).2 > 0
      · rw [if_pos hinc, grantsSum_append_nr]
        dsimp only
        omega
      · rw [if_neg hinc, List.append_nil]
        dsimp only
        omega
  | producer_apply g pi o a rest h =>
    rw [h] at hch hsum
    obtain ⟨ho, ha, hch'⟩ := hch
    have hsum' : hi + (a + grantsSum rest)
        = pc.seq_local.contig_amount + S := by
      simpa [grantsSum] using hsum
    have hbound := IBInv_contig_bound pc.seq_local S hwfc hS hSm hcovb
    subst ho
    have hdisj : ∀ x, o ≤ x → x < o + a → ¬ covered pp.seq_remote x := by
      intro x hx1 _ hc
      have := (hcovp x).mp hc
      omega
    have hwfp' := add_span_WF pp.seq_remote o a hwfp ha (by omega) hdisj
    have hcovp' := add_span_covered pp.seq_remote o a hwfp ha hdisj
    refine ⟨pc, { pp with seq_remote := (pp.seq_remote.add_span o a).1 },
      o + a, hpc, hib, hpeer, hwfc, hcovb,
      unbr_spec e.producer pj o a pp hpp, hwfp', ?_, hch',
      by dsimp only; omega⟩
    intro x
    rw [hcovp' x]
    constructor
    · rintro (hh | hh)
      · have := (hcovp x).mp hh
        omega
      · omega
    · intro hx
      by_cases hxlt : x < o
      · exact Or.inl ((hcovp x).mpr hxlt)
      · exact Or.inr ⟨by omega, hx⟩

/-- Reachability of the edge protocol. -/
inductive IBEdgeReach (ci pj : Nat) : IBEdge → IBEdge → Prop where
  | refl (e : IBEdge) : IBEdgeReach ci pj e e
  | step {e1 e2 e3 : IBEdge} : IBEdgeReach ci pj e1 e2 →
      IBEdgeStep ci pj e2 e3 → IBEdgeReach ci pj e1 e3

theorem ibinv_reach (ci pj S : Nat) (hS : 0 < S) (hSm : S ≤ SIZE_MAX)
    {e0 e : IBEdge} (hreach : IBEdgeReach ci pj e0 e)
    (h0 : IBInv ci pj S e0) : IBInv ci pj S e := by
  induction hreach with
  | refl => exact h0
  | step hr hs ih => exact ibinv_preserved ci pj S hS hSm hs ih

/-- The invariant holds right after the two constructors ran: the consumer's
assembler is fresh and the producer's window is the primed `[0, ib_size)`
interval. -/
theorem ibinv_init (ci pj S : Nat) (hS : 0 < S) (hSm : S ≤ SIZE_MAX)
    (insC outsC insP outsP : List XferDesPortInfo) (ic : XferDesPortInfo)
    (hic : insC[ci]? = some ic) (hicS : ic.ib_size = S)
    (hicg : ic.peer_guid ≠ XFERDES_NO_GUID) (oc : XferDesPortInfo)
    (hoc : outsP[pj]? = some oc) (hocS : oc.ib_size = S) :
    IBInv ci pj S
      { consumer := initXferDes insC outsC,
        producer := initXferDes insP outsP, inflight := [] } := by
  have hnone : ∀ x, ¬ covered SequenceAssembler.init x := by
    rintro x (h | ⟨q, hq, _⟩)
    · simp [SequenceAssembler.init] at h
    · simp [SequenceAssembler.init] at hq
  have hwfr := add_span_WF SequenceAssembler.init 0 S WF_init hS
    (by omega) (fun x _ _ => hnone x)
  have hcovr := add_span_covered SequenceAssembler.init 0 S WF_init hS
    (fun x _ _ => hnone x)
  have hrem : (initOutputPort oc).seq_remote
      = (SequenceAssembler.init.add_span 0 S).1 := by
    show (if oc.ib_size > 0 then
        (SequenceAssembler.init.add_span 0 oc.ib_size).1
      else SequenceAssembler.init) = _
    rw [hocS, if_pos hS]
  refine ⟨initInputPort ic, initOutputPort oc, S, ?_, hicS, hicg, WF_init,
    ?_, ?_, ?_, ?_, trivial, ?_⟩
  · show (insC.map initInputPort)[ci]? = some (initInputPort ic)
    rw [List.getElem?_map, hic]
    rfl
  · intro x hx
    exact absurd hx (hnone x)
  · show (outsP.map initOutputPort)[pj]? = some (initOutputPort oc)
    rw [List.getElem?_map, hoc]
    rfl
  · rw [hrem]
    exact hwfr
  · intro x
    rw [hrem]
    rw [hcovr x]
    constructor
    · rintro (h | h)
      · exact absurd h (hnone x)
      · omega
    · intro h
      exact Or.inr ⟨by omega, by omega⟩
  · show S + grantsSum [] = (initInputPort ic).seq_local.contig_amount + S
    simp [grantsSum, initInputPort, SequenceAssembler.init]

/-- C7. For an IB-mediated edge (consumer input port `ci` reading the IB of
size `S > 0` written by producer output port `pj`): the constructor primes
the producer's window with `add_span(0, ib_size)` in `seq_remote`; the edge
invariant holds in every reachable configuration (the consumer's
`update_bytes_read` forwards its contiguous growth as
`update_next_bytes_read(offset + ib_size, inc_amt)` and the in-flight plus
applied grants account exactly for the read prefix plus `ib_size`); hence
the producer's granted write window never exceeds the consumer's contiguous
read prefix plus `ib_size`. -/
theorem c7_ib_window_bounded (ci pj S : Nat) (hS : 0 < S)
    (hSm : S ≤ SIZE_MAX) (insC outsC insP outsP : List XferDesPortInfo)
    (ic : XferDesPortInfo) (hic : insC[ci]? = some ic)
    (hicS : ic.ib_size = S) (hicg : ic.peer_guid ≠ XFERDES_NO_GUID)
    (oc : XferDesPortInfo) (hoc : outsP[pj]? = some oc) (hocS : oc.ib_size = S)
    {e : IBEdge}
    (hreach : IBEdgeReach ci pj
      { consumer := initXferDes insC outsC,
        producer := initXferDes insP outsP, inflight := [] } e) :
    ((initOutputPort oc).seq_remote
      = (SequenceAssembler.init.add_span 0 S).1) ∧
    IBInv ci pj S e ∧
    (∀ (pc pp : XferPort), e.consumer.input_ports[ci]? = some pc →
      e.producer.output_ports[pj]? = some pp →
      ∀ x, covered pp.seq_remote x →
        x < pc.seq_local.contig_amount + pc.ib_size) := by
  have hinv : IBInv ci pj S e :=
    ibinv_reach ci pj S hS hSm hreach
      (ibinv_init ci pj S hS hSm insC outsC insP outsP ic hic hicS hicg
        oc hoc hocS)
  refine ⟨?_, hinv, ?_⟩
  · show (if oc.ib_size > 0 then
        (SequenceAssembler.init.add_span 0 oc.ib_size).1
      else SequenceAssembler.init) = _
    rw [hocS, if_pos hS]
  · intro pc pp hpc hpp x hx
    obtain ⟨pc', pp', hi, h1, h2, _, _, _, h6, _, h8, _, h10⟩ := hinv
    rw [h1] at hpc
    have hpce : pc' = pc := Option.some.inj hpc
    subst hpce
    rw [h6] at hpp
    have hppe : pp' = pp := Option.some.inj hpp
    subst hppe
    have := (h8 x).mp hx
    rw [h2]
    omega

/-- Witness for C7 at a concrete freshly-built edge (S = 4): the producer's
window is primed and byte 3 is inside the bound. -/
theorem c7_ib_window_bounded_witness :
    ((initOutputPort ⟨7, 0, 0, 4, false, false, false⟩).seq_remote
      = (SequenceAssembler.init.add_span 0 4).1) ∧
    3 < (initInputPort ⟨1, 0, 0, 4, false, false, false⟩).seq_local.contig_amount
        + (initInputPort ⟨1, 0, 0, 4, false, false, false⟩).ib_size :=
  have h := c7_ib_window_bounded 0 0 4 (by decide) (by decide)
    [⟨1, 0, 0, 4, false, false, false⟩] [] []
    [⟨7, 0, 0, 4, false, false, false⟩]
    ⟨1, 0, 0, 4, false, false, false⟩ (by decide) (by decide) (by decide)
    ⟨7, 0, 0, 4, false, false, false⟩ (by decide) (by decide)
    (IBEdgeReach.refl _)
  ⟨h.1, h.2.2 (initInputPort ⟨1, 0, 0, 4, false, false, false⟩)
    (initOutputPort ⟨7, 0, 0, 4, false, false, false⟩)
    (by decide) (by decide) 3 (by decide)⟩

----------------------------------------------------------------------
-- C4: XferDesQueue buffering of early updates
----------------------------------------------------------------------

/-- Association-list lookup (first match), modelling `std::map::find` on a
map whose keys are unique. -/
def alookup {α : Type _} : List (Nat × α) → Nat → Option α
  | [], _ => none
  | (k, v) :: rest, g => if k = g then some v else alookup rest g

/-- Association-list overwrite of an existing key. -/
def aset {α : Type _} (l : List (Nat × α)) (k : Nat) (v : α) :
    List (Nat × α) :=
  l.map (fun p => if p.1 = k then (k, v) else p)

/-- `XferDesWithUpdates` (the value type of `guid_to_xd`): the registered
XD, if any, plus the updates buffered before registration. -/
structure XferDesWithUpdates where
  xd : Option XferDesState
  seq_pre_write : List (Nat × SequenceAssembler)
  pre_bytes_total : List (Nat × Nat)

/-- `seq_pre_write[port_idx].add_span(span_start, span_size)`:
`operator[]` default-constructs a fresh assembler for a new port. -/
def sapw (m : List (Nat × SequenceAssembler)) (i off sz : Nat) :
    List (Nat × SequenceAssembler) :=
  match alookup m i with
  | some sa => aset m i (sa.add_span off sz).1
  | none => m ++ [(i, (SequenceAssembler.init.add_span off sz).1)]

/-- The queue's guid map.  `myNode` and `shift` (`NODE_BITS + INDEX_BITS`)
are parameters of the routing check `guid >> (NODE_BITS+INDEX_BITS) ==
Network::my_node_id`. -/
structure XferDesQueue where
  guid_to_xd : List (Nat × XferDesWithUpdates)

namespace XferDesQueue

/-- `XferDesQueue::update_pre_bytes_write` (channel.cc lines 5087-5117):
forward to a registered XD, buffer into the GUID entry otherwise; a guid
owned by another node is a fatal `assert(0)`. -/
def update_pre_bytes_write (q : XferDesQueue) (myNode shift guid port off
    sz : Nat) : Option XferDesQueue :=
  if guid >>> shift = myNode then
    match alookup q.guid_to_xd guid with
    | some entry =>
      match entry.xd with
      | some xd =>
        let e2 := { entry with
          xd := some (xd.update_pre_bytes_write port off sz) }
        some ⟨aset q.guid_to_xd guid e2⟩
      | none =>
        let e2 := { entry with
          seq_pre_write := sapw entry.seq_pre_write port off sz }
        some ⟨aset q.guid_to_xd guid e2⟩
    | none =>
      some ⟨q.guid_to_xd ++ [(guid, ⟨none, sapw [] port off sz, []⟩)]⟩
  else none

/-- `XferDesQueue::update_pre_bytes_total` (channel.cc lines 5120-5148):
forward, or buffer with the one-time check
`assert(pre_bytes_total.count(port_idx) == 0)`; a remote guid goes out as
an active message (no local effect). -/
def update_pre_bytes_total (q : XferDesQueue) (myNode shift guid port
    tot : Nat) : Option XferDesQueue :=
  if guid >>> shift = myNode then
    match alookup q.guid_to_xd guid with
    | some entry =>
      match entry.xd with
      | some xd =>
        let e2 := { entry with
          xd := some (xd.update_pre_bytes_total port tot) }
        some ⟨aset q.guid_to_xd guid e2⟩
      | none =>
        if (alookup entry.pre_bytes_total port).isSome then none
        else
          let e2 := { entry with
            pre_bytes_total := entry.pre_bytes_total ++ [(port, tot)] }
          some ⟨aset q.guid_to_xd guid e2⟩
    | none =>
      some ⟨q.guid_to_xd ++ [(guid, ⟨none, [], [(port, tot)]⟩)]⟩
  else some q

/-- `XferDesQueue::update_next_bytes_read` (channel.cc lines 5151-5172):
forward to a registered XD; an entry holding only buffered updates is
`assert(it->second.xd != NULL)`; an unknown guid means the downstream XD
already completed and the update is dropped; a remote guid goes out as an
active message. -/
def update_next_bytes_read (q : XferDesQueue) (myNode shift guid port off
    sz : Nat) : Option XferDesQueue :=
  if guid >>> shift = myNode then
    match alookup q.guid_to_xd guid with
    | some entry =>
      match entry.xd with
      | some xd =>
        let e2 := { entry with
          xd := some (xd.update_next_bytes_read port off sz) }
        some ⟨aset q.guid_to_xd guid e2⟩
      | none => none
    | none => some q
  else some q

/-- `XferDesQueue::enqueue_xferDes_local` (channel.cc lines 5174-5208),
restricted to the live path (metadata ready, `add_to_queue=false` as all
callers pass): register the XD, first storing every buffered
`pre_bytes_total` into `input_ports[i].remote_bytes_total` and then
swapping every buffered assembler into `input_ports[i].seq_remote`.
Registering a guid twice is `assert(git->second.xd == NULL)`. -/
def enqueue_xferDes_local (q : XferDesQueue) (guid : Nat)
    (xd : XferDesState) : Option (XferDesQueue × XferDesState) :=
  match alookup q.guid_to_xd guid with
  | some entry =>
    match entry.xd with
    | some _ => none
    | none =>
      let xd1 := entry.pre_bytes_total.foldl (fun acc pt =>
        match acc.input_ports[pt.1]? with
        | some p =>
          let p2 := { p with remote_bytes_total := pt.2 }
          { acc with input_ports := acc.input_ports.set pt.1 p2 }
        | none => acc) xd
      let xd2 := entry.seq_pre_write.foldl (fun acc ps =>
        match acc.input_ports[ps.1]? with
        | some p =>
          let p2 := { p with seq_remote := ps.2 }
          { acc with input_ports := acc.input_ports.set ps.1 p2 }
        | none => acc) xd1
      let e2 := { entry with xd := some xd2 }
      some (⟨aset q.guid_to_xd guid e2⟩, xd2)
  | none =>
    some (⟨q.guid_to_xd ++ [(guid, ⟨some xd, [], []⟩)]⟩, xd)

end XferDesQueue

/-- The per-port merge `enqueue_xferDes_local` performs for one buffered
assembler: swap it into `input_ports[i].seq_remote`. -/
def mergeOne (xd : XferDesState) (i : Nat) (sa : SequenceAssembler) :
    XferDesState :=
  match xd.input_ports[i]? with
  | some p =>
    let p2 := { p with seq_remote := sa }
    { xd with input_ports := xd.input_ports.set i p2 }
  | none => xd

/-- Counterexample to C4 as stated: `update_next_bytes_read` for an owned
but unregistered guid is NOT buffered under the GUID entry — an unknown
guid is silently dropped (and a guid with only buffered updates is a fatal
assertion), so nothing is transferred at registration. -/
theorem c4_next_read_not_buffered_counterexample :
    ¬ ∀ (myNode shift guid port off sz : Nat) (q q' : XferDesQueue),
        guid >>> shift = myNode →
        alookup q.guid_to_xd guid = none →
        XferDesQueue.update_next_bytes_read q myNode shift guid port off sz
          = some q' →
        alookup q'.guid_to_xd guid ≠ none := by
  intro hall
  exact hall 0 0 0 0 0 4 ⟨[]⟩ ⟨[]⟩ rfl rfl (by rfl) rfl

/-- C4 (amended). For `update_pre_bytes_write` and `update_pre_bytes_total`
on an owned, unregistered guid the update is buffered under the GUID entry
(spans grown into `seq_pre_write[port_idx]`, totals stored in
`pre_bytes_total[port_idx]` at most once — a second total for the same port
is a fatal assertion), and `enqueue_xferDes_local` transfers the buffered
updates into the XD's input ports so that, for a fresh port, the result is
the same as registering first and forwarding; `update_next_bytes_read` is
never buffered (dropped or asserted). -/
theorem c4_buffer_then_merge (myNode shift guid i off sz tot : Nat)
    (q : XferDesQueue) (xd : XferDesState)
    (hlocal : guid >>> shift = myNode)
    (hno : alookup q.guid_to_xd guid = none) :
    (XferDesQueue.update_pre_bytes_write q myNode shift guid i off sz
      = some ⟨q.guid_to_xd
          ++ [(guid, ⟨none, [(i, (SequenceAssembler.init.add_span off sz).1)],
              []⟩)]⟩) ∧
    (XferDesQueue.update_pre_bytes_total q myNode shift guid i tot
      = some ⟨q.guid_to_xd ++ [(guid, ⟨none, [], [(i, tot)]⟩)]⟩) ∧
    (∀ (spw : List (Nat × SequenceAssembler)) (pbt : List (Nat × Nat)),
      (alookup pbt i).isSome = true →
      ∀ (q1 : XferDesQueue),
      alookup q1.guid_to_xd guid = some ⟨none, spw, pbt⟩ →
      XferDesQueue.update_pre_bytes_total q1 myNode shift guid i tot
        = none) ∧
    (∀ p, xd.input_ports[i]? = some p →
      p.seq_remote = SequenceAssembler.init →
      (XferDesQueue.enqueue_xferDes_local
          ⟨[(guid, ⟨none, [(i, (SequenceAssembler.init.add_span off sz).1)],
            []⟩)]⟩ guid xd
        = some
            (⟨[(guid, ⟨some (mergeOne xd i
                  (SequenceAssembler.init.add_span off sz).1),
                [(i, (SequenceAssembler.init.add_span off sz).1)], []⟩)]⟩,
             mergeOne xd i (SequenceAssembler.init.add_span off sz).1)) ∧
      (mergeOne xd i (SequenceAssembler.init.add_span off sz).1).input_ports
        = (xd.update_pre_bytes_write i off sz).input_ports) := by
  refine ⟨?_, ?_, ?_, ?_⟩
  · unfold XferDesQueue.update_pre_bytes_write
    rw [if_pos hlocal, hno]
    rfl
  · unfold XferDesQueue.update_pre_bytes_total
    rw [if_pos hlocal, hno]
  · intro spw pbt hdup q1 hq1
    unfold XferDesQueue.update_pre_bytes_total
    rw [if_pos hlocal, hq1]
    dsimp only
    rw [if_pos hdup]
  · intro p hp hfresh
    constructor
    · unfold XferDesQueue.enqueue_xferDes_local
      rw [show alookup [(guid, (⟨none,
          [(i, (SequenceAssembler.init.add_span off sz).1)], []⟩ :
          XferDesWithUpdates))] guid
        = some ⟨none, [(i, (SequenceAssembler.init.add_span off sz).1)], []⟩
        from by simp [alookup]]
      dsimp only [List.foldl]
      unfold mergeOne
      simp [aset]
    · unfold mergeOne XferDesState.update_pre_bytes_write
      rw [hp]
      dsimp only
      rw [hfresh]

/-- Witness for the amended C4 at a concrete queue and a concrete XD: the
total is buffered under guid 5, and merging one buffered assembler equals
forwarding the same span after registration. -/
theorem c4_buffer_then_merge_witness :
    (XferDesQueue.update_pre_bytes_total ⟨[]⟩ 0 8 5 0 99
      = some ⟨[(5, ⟨none, [], [(0, 99)]⟩)]⟩) ∧
    ((mergeOne (initXferDes [⟨1, 0, 0, 16, false, false, false⟩] []) 0
        (SequenceAssembler.init.add_span 0 4).1).input_ports
      = ((initXferDes [⟨1, 0, 0, 16, false, false, false⟩]
          []).update_pre_bytes_write 0 0 4).input_ports) :=
  have h := c4_buffer_then_merge 0 8 5 0 0 4 99 ⟨[]⟩
    (initXferDes [⟨1, 0, 0, 16, false, false, false⟩] []) (by decide) rfl
  ⟨h.2.1,
   (h.2.2.2 (initInputPort ⟨1, 0, 0, 16, false, false, false⟩)
     (by decide) (by decide)).2⟩

/-- C10. Ports wired straight to user memory (`peer_guid ==
XFERDES_NO_GUID`) are silent: the constructor starts every such output with
`needs_pbt_update` clear, that invariant holds along every execution,
every message of every execution is addressed to a real guid, and an
`update_bytes_write` (resp. `update_bytes_read`) on a `NO_GUID` port sends
nothing and changes only that port's `seq_local`. -/
theorem c10_no_guid_ports_silent (ins outs : List XferDesPortInfo)
    {st : XferDesState} {msgs : List Message}
    (hex : XDExec (initXferDes ins outs) st msgs) :
    noGuidInv (initXferDes ins outs) ∧
    noGuidInv st ∧
    (∀ m ∈ msgs, msgGuid m ≠ XFERDES_NO_GUID) ∧
    (∀ (st1 : XferDesState) (i off sz : Nat) (p : XferPort),
      st1.output_ports[i]? = some p → p.peer_guid = XFERDES_NO_GUID →
      (st1.update_bytes_write i off sz).2 = [] ∧
      (st1.update_bytes_write i off sz).1.output_ports
        = st1.output_ports.set i
            { p with seq_local := (p.seq_local.add_span off sz).1 } ∧
      (st1.update_bytes_write i off sz).1.input_ports = st1.input_ports) ∧
    (∀ (st1 : XferDesState) (i off sz : Nat) (p : XferPort),
      st1.input_ports[i]? = some p → p.peer_guid = XFERDES_NO_GUID →
      (st1.update_bytes_read i off sz).2 = [] ∧
      (st1.update_bytes_read i off sz).1.input_ports
        = st1.input_ports.set i
            { p with seq_local := (p.seq_local.add_span off sz).1 } ∧
      (st1.update_bytes_read i off sz).1.output_ports
        = st1.output_ports) := by
  have hinv0 : noGuidInv (initXferDes ins outs) := by
    intro p hp hg
    have hp' : p ∈ outs.map initOutputPort := hp
    obtain ⟨o, _, rfl⟩ := List.mem_map.mp hp'
    have hg' : o.peer_guid = XFERDES_NO_GUID := hg
    simp [initOutputPort, hg']
  obtain ⟨hinv, hmsg⟩ := exec_noGuid hex hinv0
  refine ⟨hinv0, hinv, hmsg, ?_, ?_⟩
  · intro st1 i off sz p hp hg
    unfold update_bytes_write
    rw [hp]
    dsimp only
    rw [if_neg (fun hc => hc hg)]
    exact ⟨rfl, rfl, rfl⟩
  · intro st1 i off sz p hp hg
    unfold update_bytes_read
    rw [hp]
    dsimp only
    rw [if_neg (fun hc => hc hg)]
    exact ⟨rfl, rfl, rfl⟩

/-- Witness for C10 at a concrete one-step execution over `NO_GUID`-only
ports: the `update_bytes_write` on the `NO_GUID` output port sends nothing
and leaves the input ports untouched. -/
theorem c10_no_guid_ports_silent_witness :
    (((initXferDes [⟨XFERDES_NO_GUID, 0, 0, 0, false, false, false⟩]
        [⟨XFERDES_NO_GUID, 0, 0, 0, false, false, false⟩]).update_bytes_write
      0 0 4).2 = []) ∧
    (((initXferDes [⟨XFERDES_NO_GUID, 0, 0, 0, false, false, false⟩]
        [⟨XFERDES_NO_GUID, 0, 0, 0, false, false, false⟩]).update_bytes_write
      0 0 4).1.input_ports
      = (initXferDes [⟨XFERDES_NO_GUID, 0, 0, 0, false, false, false⟩]
          [⟨XFERDES_NO_GUID, 0, 0, 0, false, false, false⟩]).input_ports) :=
  have h := (c10_no_guid_ports_silent
      [⟨XFERDES_NO_GUID, 0, 0, 0, false, false, false⟩]
      [⟨XFERDES_NO_GUID, 0, 0, 0, false, false, false⟩]
      (XDExec.refl
        (initXferDes [⟨XFERDES_NO_GUID, 0, 0, 0, false, false, false⟩]
          [⟨XFERDES_NO_GUID, 0, 0, 0, false, false, false⟩]))).2.2.2.1
    (initXferDes [⟨XFERDES_NO_GUID, 0, 0, 0, false, false, false⟩]
      [⟨XFERDES_NO_GUID, 0, 0, 0, false, false, false⟩])
    0 0 4
    (initOutputPort ⟨XFERDES_NO_GUID, 0, 0, 0, false, false, false⟩)
    (by decide) (by decide)
  ⟨h.1, h.2.2⟩

----------------------------------------------------------------------
-- C9: the AddressList ring
----------------------------------------------------------------------

/-- Modelled from the spec: the ring capacity in words
(`AddressList::MAX_ENTRIES`, declared in the missing channel.h; the spec
describes "a single-producer single-consumer ring of fixed capacity
(e.g. 256 words)"). -/
def MAX_ENTRIES : Nat := 256

/-- The `AddressList` ring (channel.cc lines 445-510): a fixed array of
`MAX_ENTRIES` words plus the byte count and the two pointers. -/
structure AddressList where
  data : List Nat
  total_bytes : Nat
  write_pointer : Nat
  read_pointer : Nat
  deriving Repr, DecidableEq

namespace AddressList

def init : AddressList :=
  { data := List.replicate MAX_ENTRIES 0, total_bytes := 0,
    write_pointer := 0, read_pointer := 0 }

/-- Zero every word from index `k` to the end (`while(write_pointer <
MAX_ENTRIES) data[write_pointer++] = 0`). -/
def zeroFrom (d : List Nat) (k : Nat) : List Nat :=
  d.enum.map (fun p => if k ≤ p.1 then 0 else p.2)

/-- Store the words `ws` starting at index `k` (the caller writing through
the pointer `begin_nd_entry` returned). -/
def overwrite : List Nat → Nat → List Nat → List Nat
  | d, _, [] => d
  | d, k, w :: ws => overwrite (d.set k w) (k + 1) ws

/-- `AddressList::begin_nd_entry(max_dim)` (channel.cc lines 451-479):
reserve room for `max_dim * 2` words, wrapping with the zero sentinel when
the tail is too short; `none` is the "no room" null return.  On success the
returned index is where the caller writes the entry. -/
def begin_nd_entry (al : AddressList) (max_dim : Nat) :
    Option (AddressList × Nat) :=
  let entries_needed := max_dim * 2
  let new_wp := al.write_pointer + entries_needed
  if new_wp > MAX_ENTRIES then
    if al.read_pointer ≤ entries_needed then none
    else
      let al2 :=
        { al with data := zeroFrom al.data al.write_pointer, write_pointer := 0 }
      some (al2, 0)
  else
    if al.write_pointer < al.read_pointer ∧ new_wp ≥ al.read_pointer then
      none
    else if new_wp = MAX_ENTRIES ∧ al.read_pointer = 0 then none
    else some (al, al.write_pointer)

/-- `AddressList::commit_nd_entry(act_dim, bytes)` (channel.cc lines
481-492): publish the entry; `none` is the
`assert(write_pointer == MAX_ENTRIES)` failure. -/
def commit_nd_entry (al : AddressList) (act_dim bytes : Nat) :
    Option AddressList :=
  let wp := al.write_pointer + act_dim * 2
  if wp ≥ MAX_ENTRIES then
    if wp = MAX_ENTRIES then
      some { al with write_pointer := 0, total_bytes := al.total_bytes + bytes }
    else none
  else
    some { al with write_pointer := wp, total_bytes := al.total_bytes + bytes }

/-- One producer operation: `begin_nd_entry`, write the entry words, then
`commit_nd_entry`. -/
def produce (al : AddressList) (max_dim act_dim : Nat) (ws : List Nat)
    (bytes : Nat) : Option AddressList :=
  match al.begin_nd_entry max_dim with
  | none => none
  | some (al1, start) =>
    commit_nd_entry { al1 with data := overwrite al1.data start ws }
      act_dim bytes

/-- `AddressList::read_entry()` (channel.cc lines 499-510): wrap a stale
read pointer, skip the zero sentinel, return the entry index; `none` is the
`assert(total_bytes > 0)` / `assert(read_pointer == MAX_ENTRIES)`
failure. -/
def read_entry (al : AddressList) : Option (AddressList × Nat) :=
  if al.total_bytes = 0 then none
  else if al.read_pointer > MAX_ENTRIES then none
  else
    let rp1 := if al.read_pointer ≥ MAX_ENTRIES then 0 else al.read_pointer
    let rp2 := if al.data.getD rp1 0 = 0 then 0 else rp1
    some ({ al with read_pointer := rp2 }, rp2)

/-- Whole-entry consumption through the cursor
(`AddressListCursor::advance(act_dim-1, remaining(act_dim-1))`, the
"simple case - we consumed the whole thing" path of channel.cc lines
587-640): decode the entry at the read pointer, subtract its bytes, bump
`read_pointer` past it, and report the observed `(offset, dim, words)`. -/
def consumeEntry (al : AddressList) :
    Option (AddressList × (Nat × Nat × List Nat)) :=
  match al.read_entry with
  | none => none
  | some (al1, rp) =>
    let w0 := al1.data.getD rp 0
    let act_dim := w0 % 16
    if act_dim = 0 then none
    else
      let count0 := w0 / 16
      let offset := al1.data.getD (rp + 1) 0
      let bytes := (List.range (act_dim - 1)).foldl
        (fun acc i => acc * al1.data.getD (rp + 2 * (i + 1)) 0) count0
      let al2 :=
        { al1 with total_bytes := al1.total_bytes - bytes,
                   read_pointer := rp + 2 * act_dim }
      some (al2, (offset, act_dim, (al1.data.drop rp).take (2 * act_dim)))

end AddressList

/-- A 1-D entry of 16 contiguous bytes at `off`: words
`[16 <<< 4 ||| 1, off]`. -/
def produce1D (al : AddressList) (off : Nat) : Option AddressList :=
  al.produce 1 1 [257, off] 16

/-- A 2-D entry (16-byte rows, 2 rows, stride 4096) at `off`. -/
def produce2D (al : AddressList) (off : Nat) : Option AddressList :=
  al.produce 2 2 [258, off, 2, 4096] 32

def prodN (al : AddressList) (base n : Nat) : Option AddressList :=
  (List.range n).foldlM (fun a k => produce1D a (base + k)) al

def consN (al : AddressList) (n : Nat) : Option AddressList :=
  (List.range n).foldlM
    (fun a _ => (AddressList.consumeEntry a).map (fun r => r.1)) al

/-- The 385-operation history that drives the ring into the overwrite: fill
the ring exactly once (leaving `read_pointer` stale at `MAX_ENTRIES` after
the consumer drains it), refill it with 127 pending 1-D entries, then ask
for one 2-D entry.  The final `consumeEntry` is the first read after
that. -/
def c9Trace : Option (AddressList × (Nat × Nat × List Nat)) := do
  let a1 ← produce1D AddressList.init 1000
  let a2 ← (AddressList.consumeEntry a1).map (fun r => r.1)
  let a3 ← prodN a2 1001 127
  let a4 ← consN a3 127
  let a5 ← prodN a4 2001 127
  let a6 ← produce2D a5 3001
  AddressList.consumeEntry a6

set_option maxRecDepth 100000 in
set_option maxHeartbeats 1000000 in
/-- C9. The round-trip FIFO claim fails on the source: in the history of
`c9Trace` (all 255 earlier operations succeed) the ring holds 127 pending
1-D entries, the oldest at slots `[0, 2)` with offset 2001, when
`begin_nd_entry(2)` wraps; the stale `read_pointer = MAX_ENTRIES` passes
the `read_pointer <= entries_needed` guard, so the writer wraps to slot 0
and overwrites the two oldest pending entries with the 2-D entry.  The
consumer's next read then observes the 2-D entry `(offset 3001)` instead
of the FIFO-mandated 1-D entry `(offset 2001)`, whose words are gone from
the ring. -/
theorem c9_ring_wrap_overwrites_pending :
    (c9Trace.map (fun r => r.2)
      = some (3001, 2, [258, 3001, 2, 4096])) ∧
    (c9Trace.map (fun r => (r.1.data.take 4, r.1.total_bytes))
      = some ([258, 3001, 2, 4096], 2032)) ∧
    ((3001, 2, ([258, 3001, 2, 4096] : List Nat))
      ≠ (2001, 1, ([257, 2001] : List Nat))) := by
  refine ⟨by decide, by decide, by decide⟩

end Channel

----------------------------------------------------------------------
-- sanity examples (removed content is in theorems below)
----------------------------------------------------------------------

example :
    ((Channel.SequenceAssembler.init.add_span 0 5).1.add_span 5 3).1.contig_amount
      = 8 := by decide

example :
    (((Channel.SequenceAssembler.init.add_span 5 3).1.add_span 0 5).1).contig_amount
      = 8 := by decide

example :
    (((Channel.SequenceAssembler.init.add_span 5 3).1.add_span 0 5).1).span_exists 0 10
      = 8 := by decide

-- the cached `first_noncontig` is never lowered by the insert path, so data
-- beyond a gap is (conservatively) invisible until a coalesce publishes it
example :
    ((Channel.SequenceAssembler.init.add_span 4 4).1.add_span 10 2).1.span_exists 10 2
      = 0 := by decide

-- a coalesce that stops early publishes `first_noncontig`, making the
-- general (locked) search path reachable
example :
    ((((Channel.SequenceAssembler.init.add_span 0 4).1.add_span 6 2).1.add_span
        10 2).1.add_span 4 2).1
      = { contig_amount := 8, noncontig_bit := true, first_noncontig := 10,
          spans := [(10, 2)] } := by decide

example :
    (((((Channel.SequenceAssembler.init.add_span 0 4).1.add_span 6 2).1.add_span
        10 2).1.add_span 4 2).1).span_exists 10 5
      = 2 := by decide
